import Mathlib

/-!
Verification of the OpenCode platform adapter
(`ring_installer/adapters/opencode.py`).

The adapter converts Ring-format artifacts (skills, agents, commands,
hooks) to OpenCode's format.  We embed the Python code shallowly:
Python values become the inductive type `PyVal`, string-keyed Python
dicts become ordered association lists (`Dict`), and the adapter's
methods become Lean functions over these.
-/

namespace OpenCode

/-- A Python value, as used by the adapter: strings, booleans, integers,
`None`, lists and dicts (ordered, arbitrary hashable keys). -/
inductive PyVal where
  | str (s : String)
  | bool (b : Bool)
  | int (n : Int)
  | none
  | list (xs : List PyVal)
  | dict (kvs : List (PyVal × PyVal))

mutual

/-- Structural equality on `PyVal`, the embedding of Python `==` on
these values (no numeric cross-type coercions are modelled; the adapter
never compares a number to a boolean). -/
def pyBeq : PyVal → PyVal → Bool
  | .str a, .str b => a == b
  | .bool a, .bool b => a == b
  | .int a, .int b => a == b
  | .none, .none => true
  | .list xs, .list ys => pyBeqList xs ys
  | .dict xs, .dict ys => pyBeqKVs xs ys
  | _, _ => false

/-- Elementwise equality of `PyVal` lists. -/
def pyBeqList : List PyVal → List PyVal → Bool
  | [], [] => true
  | x :: xs, y :: ys => pyBeq x y && pyBeqList xs ys
  | _, _ => false

/-- Entrywise equality of `PyVal` key-value lists. -/
def pyBeqKVs : List (PyVal × PyVal) → List (PyVal × PyVal) → Bool
  | [], [] => true
  | (k1, v1) :: xs, (k2, v2) :: ys => pyBeq k1 k2 && pyBeq v1 v2 && pyBeqKVs xs ys
  | _, _ => false

end

mutual

/-- `pyBeq` decides propositional equality. -/
theorem pyBeq_iff : ∀ a b, pyBeq a b = true ↔ a = b
  | .str a, .str b => by simp [pyBeq]
  | .list xs, .list ys => by
      simp only [pyBeq]
      rw [pyBeqList_iff xs ys]
      constructor
      · intro h; rw [h]
      · intro h; cases h; rfl
  | .dict xs, .dict ys => by
      simp only [pyBeq]
      rw [pyBeqKVs_iff xs ys]
      constructor
      · intro h; rw [h]
      · intro h; cases h; rfl
  | .bool a, .bool b => by simp [pyBeq]
  | .int a, .int b => by simp [pyBeq]
  | .none, .none => by simp [pyBeq]
  | .str a, .bool b => by simp [pyBeq]
  | .str a, .int b => by simp [pyBeq]
  | .str a, .none => by simp [pyBeq]
  | .str a, .list b => by simp [pyBeq]
  | .str a, .dict b => by simp [pyBeq]
  | .bool a, .str b => by simp [pyBeq]
  | .bool a, .int b => by simp [pyBeq]
  | .bool a, .none => by simp [pyBeq]
  | .bool a, .list b => by simp [pyBeq]
  | .bool a, .dict b => by simp [pyBeq]
  | .int a, .str b => by simp [pyBeq]
  | .int a, .bool b => by simp [pyBeq]
  | .int a, .none => by simp [pyBeq]
  | .int a, .list b => by simp [pyBeq]
  | .int a, .dict b => by simp [pyBeq]
  | .none, .str b => by simp [pyBeq]
  | .none, .bool b => by simp [pyBeq]
  | .none, .int b => by simp [pyBeq]
  | .none, .list b => by simp [pyBeq]
  | .none, .dict b => by simp [pyBeq]
  | .list a, .str b => by simp [pyBeq]
  | .list a, .bool b => by simp [pyBeq]
  | .list a, .int b => by simp [pyBeq]
  | .list a, .none => by simp [pyBeq]
  | .list a, .dict b => by simp [pyBeq]
  | .dict a, .str b => by simp [pyBeq]
  | .dict a, .bool b => by simp [pyBeq]
  | .dict a, .int b => by simp [pyBeq]
  | .dict a, .none => by simp [pyBeq]
  | .dict a, .list b => by simp [pyBeq]

/-- `pyBeqList` decides propositional equality. -/
theorem pyBeqList_iff : ∀ xs ys, pyBeqList xs ys = true ↔ xs = ys
  | [], [] => by simp [pyBeqList]
  | [], _ :: _ => by simp [pyBeqList]
  | _ :: _, [] => by simp [pyBeqList]
  | x :: xs, y :: ys => by
      simp only [pyBeqList, Bool.and_eq_true]
      rw [pyBeq_iff x y, pyBeqList_iff xs ys]
      simp

/-- `pyBeqKVs` decides propositional equality. -/
theorem pyBeqKVs_iff : ∀ xs ys, pyBeqKVs xs ys = true ↔ xs = ys
  | [], [] => by simp [pyBeqKVs]
  | [], _ :: _ => by simp [pyBeqKVs]
  | _ :: _, [] => by simp [pyBeqKVs]
  | (k1, v1) :: xs, (k2, v2) :: ys => by
      simp only [pyBeqKVs, Bool.and_eq_true]
      rw [pyBeq_iff k1 k2, pyBeq_iff v1 v2, pyBeqKVs_iff xs ys]
      simp

end

instance : DecidableEq PyVal := fun a b =>
  decidable_of_iff (pyBeq a b = true) (pyBeq_iff a b)

/-- A string-keyed Python dict in insertion order (e.g. parsed YAML
frontmatter, or a parsed JSON object). -/
abbrev Dict := List (String × PyVal)

/-- A Python dict with arbitrary keys, in insertion order. -/
abbrev PyDict := List (PyVal × PyVal)

/-- `d[k]` lookup: the value at the first (hence only, in a real Python
dict) occurrence of key `k`. -/
def dictGet (d : Dict) (k : String) : Option PyVal :=
  match d with
  | [] => Option.none
  | (k0, v0) :: rest => if k0 = k then some v0 else dictGet rest k

/-- `k in d` membership test. -/
def dictContains (d : Dict) (k : String) : Bool :=
  (dictGet d k).isSome

/-- `d[k] = v` assignment: updates the value at an existing key in
place (keeping its position), otherwise appends the new entry at the
end, like a Python dict. -/
def dictSet (d : Dict) (k : String) (v : PyVal) : Dict :=
  match d with
  | [] => [(k, v)]
  | (k0, v0) :: rest => if k0 = k then (k0, v) :: rest else (k0, v0) :: dictSet rest k v

/-- `d.pop(k, None)`: removes the first occurrence of key `k`. -/
def dictPop (d : Dict) (k : String) : Dict :=
  match d with
  | [] => []
  | (k0, v0) :: rest => if k0 = k then rest else (k0, v0) :: dictPop rest k

/-- Lookup in a dict with `PyVal` keys. -/
def pyDictGet (d : PyDict) (k : PyVal) : Option PyVal :=
  match d with
  | [] => Option.none
  | (k0, v0) :: rest => if k0 = k then some v0 else pyDictGet rest k

/-- Assignment in a dict with `PyVal` keys: update in place or append. -/
def pyDictSet (d : PyDict) (k : PyVal) (v : PyVal) : PyDict :=
  match d with
  | [] => [(k, v)]
  | (k0, v0) :: rest => if k0 = k then (k0, v) :: rest else (k0, v0) :: pyDictSet rest k v

/-- The adapter's `_OPENCODE_TOOL_NAME_MAP` (Claude Code name →
OpenCode name), in source order. -/
def _OPENCODE_TOOL_NAME_MAP : List (String × String) :=
  [("Bash", "bash"), ("Read", "read"), ("Write", "write"), ("Edit", "edit"),
   ("List", "list"), ("Glob", "glob"), ("Grep", "grep"), ("WebFetch", "webfetch"),
   ("Task", "task"), ("TodoWrite", "todowrite"), ("TodoRead", "todoread"),
   ("MultiEdit", "edit"), ("NotebookEdit", "edit"), ("BrowseURL", "webfetch"),
   ("FetchURL", "webfetch")]

/-- The adapter's `_OPENCODE_MODEL_MAP` (model shorthand → OpenCode
model id). -/
def _OPENCODE_MODEL_MAP : List (String × String) :=
  [("opus", "anthropic/claude-opus-4-5"),
   ("sonnet", "anthropic/claude-sonnet-4-5"),
   ("haiku", "anthropic/claude-haiku-4-5"),
   ("inherit", "inherit")]

/-- `c in s` on a Python string (character containment), via the
character list. -/
def strContainsChar (s : String) (c : Char) : Bool :=
  s.data.contains c

/-- Python `str.lower()` over the ASCII range. -/
def strLower (s : String) : String :=
  String.mk (s.data.map Char.toLower)

/-- Association-list lookup, the shape of Python's `dict.get` on the
static tables. -/
def tableGet (tbl : List (String × String)) (k : String) : Option String :=
  match tbl with
  | [] => Option.none
  | (k0, v0) :: rest => if k0 = k then some v0 else tableGet rest k

/-- `self._OPENCODE_TOOL_NAME_MAP.get(tool, tool.lower())`: exact table
lookup with a lower-cased fallback. -/
def toolMapGet (tool : String) : String :=
  (tableGet _OPENCODE_TOOL_NAME_MAP tool).getD (strLower tool)

/-- The dict branch of `_transform_tools_for_opencode`: the Python
`for tool, enabled in tools.items()` loop, accumulating into the fresh
dict `normalized` (non-string keys are skipped). -/
def toolsDictGo (acc : PyDict) : PyDict → PyDict
  | [] => acc
  | (PyVal.str s, v) :: rest => toolsDictGo (pyDictSet acc (PyVal.str (toolMapGet s)) v) rest
  | (_, _) :: rest => toolsDictGo acc rest

/-- Python `v in xs` membership on a list of values. -/
def pyListContains (xs : List PyVal) (v : PyVal) : Bool :=
  match xs with
  | [] => false
  | x :: rest => if x = v then true else pyListContains rest v

/-- The list branch of `_transform_tools_for_opencode`: the Python
`for tool in tools` loop, accumulating into `normalized_list`
(string entries are mapped and deduplicated, others appended as-is). -/
def toolsListGo (acc : List PyVal) : List PyVal → List PyVal
  | [] => acc
  | PyVal.str s :: rest =>
      let m := PyVal.str (toolMapGet s)
      if pyListContains acc m then toolsListGo acc rest else toolsListGo (acc ++ [m]) rest
  | v :: rest => toolsListGo (acc ++ [v]) rest

/-- `_transform_tools_for_opencode`: normalizes a `tools` value for
OpenCode; dicts and lists are rewritten, anything else is returned
unchanged. -/
def _transform_tools_for_opencode : PyVal → PyVal
  | PyVal.dict kvs => PyVal.dict (toolsDictGo [] kvs)
  | PyVal.list xs => PyVal.list (toolsListGo [] xs)
  | v => v

/-- The single quote character, `'`. -/
def squote : Char := Char.ofNat 39

/-- The double quote character, `"`. -/
def dquote : Char := Char.ofNat 34

/-- Escapes backslashes and the given quote character, as Python's
`repr` of a string does (control-character escapes are not modelled;
they cannot affect any property proved here). -/
def pyEscape (q : Char) (s : String) : String :=
  String.mk (s.data.foldr
    (fun c acc => if c = '\\' || c = q then '\\' :: c :: acc else c :: acc) [])

/-- Python `repr` of a string: single-quoted, unless the string
contains a single quote and no double quote. -/
def pyReprStr (s : String) : String :=
  if strContainsChar s squote && !strContainsChar s dquote then
    String.mk [dquote] ++ pyEscape dquote s ++ String.mk [dquote]
  else
    String.mk [squote] ++ pyEscape squote s ++ String.mk [squote]

mutual

/-- Python `repr` of a value. -/
def pyRepr : PyVal → String
  | .str s => pyReprStr s
  | .bool b => if b then "True" else "False"
  | .int n => toString n
  | .none => "None"
  | .list xs => "[" ++ pyReprList xs ++ "]"
  | .dict kvs => String.mk ['{'] ++ pyReprKVs kvs ++ String.mk ['}']

/-- Comma-separated `repr` of list elements. -/
def pyReprList : List PyVal → String
  | [] => ""
  | [x] => pyRepr x
  | x :: rest => pyRepr x ++ ", " ++ pyReprList rest

/-- Comma-separated `repr` of dict entries. -/
def pyReprKVs : List (PyVal × PyVal) → String
  | [] => ""
  | [(k, v)] => pyRepr k ++ ": " ++ pyRepr v
  | (k, v) :: rest => pyRepr k ++ ": " ++ pyRepr v ++ ", " ++ pyReprKVs rest

end

/-- Python `str()` of a value (used by the adapter in
`"/" not in str(model)` and in the f-string `f"anthropic/{model}"`):
identity on strings, `repr`-based rendering otherwise. -/
def pyStrOf : PyVal → String
  | .str s => s
  | v => pyRepr v

/-- Whether a value is hashable in Python: lists and dicts are not,
so using one as the left operand of `in` on a dict raises
`TypeError`. -/
def pyHashable : PyVal → Bool
  | .list _ => false
  | .dict _ => false
  | _ => true

/-- The `model` block of `_transform_frontmatter`: rewrite the field
through `_OPENCODE_MODEL_MAP`, else prefix `anthropic/` when the value
has no `/` and is not `"inherit"`.  `Option.none` models the
`TypeError` that `model in self._OPENCODE_MODEL_MAP` raises when the
model value is unhashable (a list or a dict); that exception is not
caught anywhere in the adapter. -/
def modelStep (fm : Dict) : Option Dict :=
  match dictGet fm "model" with
  | some (PyVal.str s) =>
      match tableGet _OPENCODE_MODEL_MAP s with
      | some q => some (dictSet fm "model" (PyVal.str q))
      | Option.none =>
          if !strContainsChar s '/' && s ≠ "inherit" then
            some (dictSet fm "model" (PyVal.str ("anthropic/" ++ s)))
          else some fm
  | some (PyVal.list _) => Option.none
  | some (PyVal.dict _) => Option.none
  | some m =>
      -- a hashable non-string model (bool, int, None) is never in the
      -- (string-keyed) model map and never equals the string "inherit"
      if !strContainsChar (pyStrOf m) '/' then
        some (dictSet fm "model" (PyVal.str ("anthropic/" ++ pyStrOf m)))
      else some fm
  | Option.none => some fm

/-- The `tools` block of `_transform_frontmatter`
(`_transform_tools_for_opencode` is total: every branch is guarded by
an `isinstance` check). -/
def toolsStep (fm : Dict) : Dict :=
  match dictGet fm "tools" with
  | some t => dictSet fm "tools" (_transform_tools_for_opencode t)
  | Option.none => fm

/-- `_transform_frontmatter`: rewrites the `model` field, then the
`tools` field.  The input dict is copied; keys keep their positions.
`Option.none` models an uncaught `TypeError` from the model step. -/
def _transform_frontmatter (fm : Dict) : Option Dict :=
  (modelStep fm).map toolsStep

/-- The fixed drop-list applied to agent frontmatter. -/
def agentDropFields : List String :=
  ["version", "last_updated", "changelog", "output_schema"]

/-- The `type` block of `_transform_agent_frontmatter`: `type` is
always popped when present; `mode` is only written when the popped
value is `"subagent"` or `"primary"` and `mode` is not already
present. -/
def typeStep (r : Dict) : Dict :=
  match dictGet r "type" with
  | some t =>
      let r0 := dictPop r "type"
      if t = PyVal.str "subagent" ∧ !dictContains r0 "mode" then
        dictSet r0 "mode" (PyVal.str "subagent")
      else if t = PyVal.str "primary" ∧ !dictContains r0 "mode" then
        dictSet r0 "mode" (PyVal.str "primary")
      else r0
  | Option.none => r

/-- `_transform_agent_frontmatter`: general frontmatter rewrite, then
`type` → `mode` conversion, then removal of the drop-list fields
(the latter two steps are total; only the model step can raise). -/
def _transform_agent_frontmatter (fm : Dict) : Option Dict :=
  (_transform_frontmatter fm).map (fun r => agentDropFields.foldl dictPop (typeStep r))

/-- The fixed drop-list applied to command frontmatter. -/
def commandDropFields : List String :=
  ["name", "version", "type", "tags"]

/-- The `args`/`arguments` → `argument-hint` renaming block of
`_transform_command_frontmatter`. -/
def argStep (r : Dict) : Dict :=
  match dictGet r "args" with
  | some a =>
      if !dictContains r "argument-hint" then
        dictSet (dictPop r "args") "argument-hint" a
      else r
  | Option.none =>
      match dictGet r "arguments" with
      | some a =>
          if !dictContains r "argument-hint" then
            dictSet (dictPop r "arguments") "argument-hint" a
          else r
      | Option.none => r

/-- `_transform_command_frontmatter`: general frontmatter rewrite, then
`args`/`arguments` → `argument-hint` renaming, then removal of the
drop-list fields (the latter two steps are total; only the model step
can raise). -/
def _transform_command_frontmatter (fm : Dict) : Option Dict :=
  (_transform_frontmatter fm).map (fun r => commandDropFields.foldl dictPop (argStep r))

/-- A regex word character (`\w`), over the ASCII range the adapter's
tool names and hook content use. -/
def isWordChar (c : Char) : Bool := c.isAlpha || c.isDigit || c = '_'

/-- A regex whitespace character (`\s`), ASCII range. -/
def isPySpace (c : Char) : Bool :=
  c = ' ' || c = Char.ofNat 9 || c = Char.ofNat 10 || c = Char.ofNat 13 ||
  c = Char.ofNat 11 || c = Char.ofNat 12

/-- Case-insensitive match of `pat` against a leading segment of `s`;
returns the remainder on success (the `re.IGNORECASE` literal match). -/
def matchCI : List Char → List Char → Option (List Char)
  | [], s => some s
  | _ :: _, [] => Option.none
  | p :: ps, c :: cs => if p.toLower = c.toLower then matchCI ps cs else Option.none

/-- Whether `s` begins with a case-insensitive occurrence of `pat`. -/
def startsWithCI (pat s : List Char) : Bool := (matchCI pat s).isSome

/-- The regex lookahead `(?=\s+tool|\s+command)` under `re.IGNORECASE`:
at least one whitespace character, then the literal text `tool` or
`command` (as a prefix of what follows; no trailing word boundary is
required, so `toolkit` qualifies). -/
def lookToolCmd (s : List Char) : Bool :=
  match s with
  | [] => false
  | c :: _ =>
      isPySpace c &&
      (startsWithCI "tool".data (s.dropWhile isPySpace) ||
       startsWithCI "command".data (s.dropWhile isPySpace))

/-- The trailing `\b` of the pattern: the next character, if any, is
not a word character. -/
def boundaryAt (s : List Char) : Bool :=
  match s with
  | [] => true
  | c :: _ => !isWordChar c

theorem matchCI_length (pat : List Char) :
    ∀ s rest, matchCI pat s = some rest → rest.length + pat.length = s.length := by
  induction pat with
  | nil => intro s rest h; simp [matchCI] at h; simp [h]
  | cons p ps ih =>
      intro s rest h
      cases s with
      | nil => simp [matchCI] at h
      | cons c cs =>
          simp only [matchCI] at h
          split at h
          · have := ih cs rest h
            simp [List.length_cons]; omega
          · exact absurd h (by simp)

/-- One pass of `re.sub` for the pattern `\bNAME\b(?=\s+tool|\s+command)`
(with `re.IGNORECASE`), scanning left to right:  `prevW` records whether
the character just before the current position (in the original string)
is a word character; `fuel` bounds the recursion and is kept at least
the length of the remaining input. -/
def scanSub (n0 : Char) (ns : List Char) (repl : List Char) :
    Nat → Bool → List Char → List Char
  | 0, _, s => s
  | _ + 1, _, [] => []
  | fuel + 1, prevW, c :: cs =>
      if prevW then c :: scanSub n0 ns repl fuel (isWordChar c) cs
      else
        match matchCI (n0 :: ns) (c :: cs) with
        | some rest =>
            if boundaryAt rest && lookToolCmd rest then
              repl ++ scanSub n0 ns repl fuel (isWordChar ((n0 :: ns).getLastD ' ')) rest
            else c :: scanSub n0 ns repl fuel (isWordChar c) cs
        | Option.none => c :: scanSub n0 ns repl fuel (isWordChar c) cs

/-- `re.sub(rf"\b{name}\b(?=\s+tool|\s+command)", repl, s, flags=re.IGNORECASE)`
for a nonempty name (every name in the tool table is nonempty). -/
def subTool (name repl : String) (s : List Char) : List Char :=
  match name.data with
  | [] => s
  | n0 :: ns => scanSub n0 ns repl.data s.length false s

/-- `_normalize_tool_references`: applies the tool-name substitution
for every entry of `_OPENCODE_TOOL_NAME_MAP`, in table order, each pass
running on the previous pass's output. -/
def _normalize_tool_references (text : String) : String :=
  String.mk (_OPENCODE_TOOL_NAME_MAP.foldl
    (fun acc kv => subTool kv.1 kv.2 acc) text.data)

/-- A canonical document, represented by the result of the frontmatter
codec: the extracted metadata (empty when the document has no
recognizable metadata block, or when its block was unparseable) and the
body text. -/
structure Document where
  fm : Dict
  body : String

/-- Modelled from the spec: `extract_frontmatter` lives in the base
class `PlatformAdapter`, which is not part of the sources; per the
spec, a document with no recognizable metadata block yields an empty
metadata structure and the entire text as body.  We represent a
document by that extraction result, so extraction is projection. -/
def extract_frontmatter (d : Document) : Dict × String := (d.fm, d.body)

/-- Simple flow-style YAML rendering of one metadata value. -/
def yamlVal : PyVal → String
  | .str s => s
  | v => pyRepr v

/-- Modelled from the spec: `create_frontmatter` lives in the base
class `PlatformAdapter`, which is not part of the sources; per the
spec it renders the metadata back into the delimited block syntax. -/
def create_frontmatter (fm : Dict) : String :=
  "---\n" ++ String.join (fm.map (fun kv => kv.1 ++ ": " ++ yamlVal kv.2 ++ "\n")) ++ "---\n"

/-- `transform_skill`: extract, rewrite the frontmatter when nonempty
(Python truthiness), normalize tool references in the body, reassemble
when the (transformed) frontmatter is nonempty.  `Option.none` models
an uncaught exception from the frontmatter rewrite. -/
def transform_skill (d : Document) : Option String :=
  let (fm0, body0) := extract_frontmatter d
  match (if fm0.isEmpty then some fm0 else _transform_frontmatter fm0) with
  | Option.none => Option.none
  | some fm =>
      let body := _normalize_tool_references body0
      some (if fm.isEmpty then body else create_frontmatter fm ++ "\n" ++ body)

/-- `transform_agent`: like `transform_skill` but with the agent
frontmatter rewrite. -/
def transform_agent (d : Document) : Option String :=
  let (fm0, body0) := extract_frontmatter d
  match (if fm0.isEmpty then some fm0 else _transform_agent_frontmatter fm0) with
  | Option.none => Option.none
  | some fm =>
      let body := _normalize_tool_references body0
      some (if fm.isEmpty then body else create_frontmatter fm ++ "\n" ++ body)

/-- `transform_command`: like `transform_skill` but with the command
frontmatter rewrite. -/
def transform_command (d : Document) : Option String :=
  let (fm0, body0) := extract_frontmatter d
  match (if fm0.isEmpty then some fm0 else _transform_command_frontmatter fm0) with
  | Option.none => Option.none
  | some fm =>
      let body := _normalize_tool_references body0
      some (if fm.isEmpty then body else create_frontmatter fm ++ "\n" ++ body)

/-- Python `str.replace(pat, repl)` on character lists for a nonempty
`pat`: replaces every occurrence, scanning left to right without
overlap.  `fuel` bounds the recursion and is kept at least the length
of the remaining input. -/
def replaceFuel (pat repl : List Char) : Nat → List Char → List Char
  | 0, s => s
  | _ + 1, [] => []
  | fuel + 1, c :: cs =>
      if pat.isPrefixOf (c :: cs) then
        repl ++ replaceFuel pat repl fuel (List.drop pat.length (c :: cs))
      else c :: replaceFuel pat repl fuel cs

/-- `s.replace(pat, repl)` (the adapter only ever calls it with a
nonempty pattern). -/
def pyReplace (s pat repl : String) : String :=
  String.mk (replaceFuel pat.data repl.data s.data.length s.data)

/-- `transform_hook`: the four plain-text substitutions of the Python
method, in source order. -/
def transform_hook (hook_content : String) : String :=
  let r1 := pyReplace hook_content "${CLAUDE_PLUGIN_ROOT}/hooks/" "bash ~/.config/opencode/hook/"
  let r2 := pyReplace r1 "$CLAUDE_PLUGIN_ROOT/hooks/" "bash ~/.config/opencode/hook/"
  let r3 := pyReplace r2 "${CLAUDE_PLUGIN_ROOT}" "~/.config/opencode"
  pyReplace r3 "$CLAUDE_PLUGIN_ROOT" "~/.config/opencode"

/-- The environment `get_install_path` runs in: paths appear already
expanded and resolved (`expanduser().resolve()`), as ordered component
lists. -/
structure PathEnv where
  /-- The configured default (`install_path` from the platform config,
  defaulting to `~/.config/opencode`), expanded. -/
  defaultPath : List String
  /-- `Path.home().resolve()`. -/
  home : List String
  /-- `OPENCODE_CONFIG_PATH`, if set: the override, already expanded
  and resolved. -/
  override : Option (List String)

/-- `get_install_path` (first call; the memoization in
`self._install_path` only caches this result): an override is accepted
exactly when `candidate.relative_to(home)` succeeds, i.e. when `home`'s
components are a leading segment of the candidate's components;
otherwise a warning is logged and the default is kept. -/
def get_install_path (e : PathEnv) : List String :=
  match e.override with
  | Option.none => e.defaultPath
  | some cand => if e.home.isPrefixOf cand then cand else e.defaultPath

/-- What reading `opencode.json` produced, abstracting the file system:
the file may be missing, reading or JSON-parsing it may raise (both are
caught by the adapter), or it parses to a JSON object. -/
inductive ReadOutcome where
  | missing
  | failure
  | ok (cfg : Dict)

/-- The file-system facts `merge_hooks_to_config` interacts with. -/
structure MergeWorld where
  read : ReadOutcome
  /-- Whether creating the directory and writing the file succeeds. -/
  writeOk : Bool

/-- The observable outcome of `merge_hooks_to_config`: either an
exception propagates to the caller, or the method returns a boolean,
together with the configuration written to disk (if any). -/
inductive MergeOutcome where
  | raised
  | returned (success : Bool) (written : Option Dict)
deriving DecidableEq

/-- Python iteration (`list.extend` argument): lists yield their
elements, strings their characters, dicts their keys; other values are
not iterable (`TypeError`). -/
def pyIterate : PyVal → Option (List PyVal)
  | .list xs => some xs
  | .str s => some (s.data.map (fun c => PyVal.str (String.mk [c])))
  | .dict kvs => some (kvs.map (fun kv => kv.1))
  | _ => Option.none

/-- `hooks_config.get("hooks", hooks_config)`: the value under a
top-level `hooks` key, else the whole (string-keyed) config itself. -/
def hooksToMerge (hooks_config : Dict) : PyVal :=
  match dictGet hooks_config "hooks" with
  | some v => v
  | Option.none => PyVal.dict (hooks_config.map (fun kv => (PyVal.str kv.1, kv.2)))

/-- The merge loop over the incoming events: for each event, the
existing entry list (created as `[]` when absent) is extended with the
incoming entries.  `Option.none` models an exception escaping the loop
(the receiver is not a list, or the incoming value is not iterable). -/
def mergeLoop (h : PyDict) : List (PyVal × PyVal) → Option PyDict
  | [] => some h
  | (e, ev) :: rest =>
      let cur := (pyDictGet h e).getD (PyVal.list [])
      match cur with
      | PyVal.list xs =>
          match pyIterate ev with
          | some items => mergeLoop (pyDictSet h e (PyVal.list (xs ++ items))) rest
          | Option.none => Option.none
      | _ => Option.none

/-- The base configuration after the read step (read and parse errors
are caught and yield `{}`) and the `hooks`-key ensure step. -/
def ensuredBase (w : MergeWorld) : Dict :=
  let existing : Dict :=
    match w.read with
    | ReadOutcome.ok cfg => cfg
    | _ => []
  if dictContains existing "hooks" then existing
  else dictSet existing "hooks" (PyVal.dict [])

/-- `merge_hooks_to_config`: read (read/parse errors are caught and
yield an empty base), ensure a `hooks` sub-dict, merge additively,
then either report success on a dry run, or write (write errors are
caught and reported as `False`).  Exceptions raised by the merge loop
itself are not caught and propagate. -/
def merge_hooks_to_config (w : MergeWorld) (hooks_config : Dict) (dry_run : Bool) :
    MergeOutcome :=
  let existing := ensuredBase w
  match hooksToMerge hooks_config with
  | PyVal.dict items =>
      if items.isEmpty then
        -- zero loop iterations: nothing is merged and nothing can raise
        if dry_run then MergeOutcome.returned true Option.none
        else if w.writeOk then MergeOutcome.returned true (some existing)
        else MergeOutcome.returned false Option.none
      else
        match dictGet existing "hooks" with
        | some (PyVal.dict h) =>
            match mergeLoop h items with
            | some h1 =>
                let merged := dictSet existing "hooks" (PyVal.dict h1)
                if dry_run then MergeOutcome.returned true Option.none
                else if w.writeOk then MergeOutcome.returned true (some merged)
                else MergeOutcome.returned false Option.none
            | Option.none => MergeOutcome.raised
        | _ =>
            -- an existing non-dict `hooks` value makes the first loop
            -- iteration raise (`in`, indexing or `.extend` fails)
            MergeOutcome.raised
  | _ =>
      -- `.items()` on a non-dict raises
      MergeOutcome.raised

/-!
## Claim-side specifications for the tools rewrite

These definitions follow the wording of the specification, to be
compared with the functions embedded from the source.
-/

/-- Spec-side rewrite of one list entry: a string entry is rewritten
through the tool-name table (falling back to a lower-cased copy when no
mapping exists); a non-string entry passes through unchanged. -/
def specMapEntry : PyVal → PyVal
  | .str s => .str (toolMapGet s)
  | v => v

/-- Spec-side deduplication by resulting name, keeping first-occurrence
order; non-string entries pass through unchanged. -/
def specDedup (seen : List String) : List PyVal → List PyVal
  | [] => []
  | PyVal.str s :: rest =>
      if s ∈ seen then specDedup seen rest
      else PyVal.str s :: specDedup (s :: seen) rest
  | v :: rest => v :: specDedup seen rest

/-- Spec-side list rewrite: map every entry, then deduplicate by
resulting name. -/
def specToolsList (xs : List PyVal) : List PyVal :=
  specDedup [] (xs.map specMapEntry)

/-- Spec-side dict rewrite: rewrite each string key through the
tool-name table, preserving the associated value, and build the result
dict from those entries in order. -/
def specToolsDict (kvs : PyDict) : PyDict :=
  (kvs.filterMap (fun kv =>
    match kv.1 with
    | PyVal.str s => some (PyVal.str (toolMapGet s), kv.2)
    | _ => Option.none)).foldl (fun acc kv => pyDictSet acc kv.1 kv.2) []

/-- The string entries of an accumulator list. -/
def stringsOf (xs : List PyVal) : List String :=
  xs.filterMap (fun v => match v with | PyVal.str s => some s | _ => Option.none)

theorem pyListContains_str (acc : List PyVal) (m : String) :
    pyListContains acc (PyVal.str m) = true ↔ m ∈ stringsOf acc := by
  induction acc with
  | nil => simp [pyListContains, stringsOf]
  | cons x rest ih =>
      cases x with
      | str s =>
          by_cases h : s = m
          · subst h; simp [pyListContains, stringsOf, List.filterMap_cons]
          · have hne : PyVal.str s ≠ PyVal.str m := by simp [h]
            simp only [pyListContains, if_neg hne, ih, stringsOf, List.filterMap_cons]
            simp [Ne.symm h]
      | bool b => simpa [pyListContains, stringsOf, List.filterMap_cons] using ih
      | int n => simpa [pyListContains, stringsOf, List.filterMap_cons] using ih
      | none => simpa [pyListContains, stringsOf, List.filterMap_cons] using ih
      | list ys => simpa [pyListContains, stringsOf, List.filterMap_cons] using ih
      | dict kvs => simpa [pyListContains, stringsOf, List.filterMap_cons] using ih

theorem specDedup_congr (l : List PyVal) :
    ∀ seen1 seen2, (∀ s, s ∈ seen1 ↔ s ∈ seen2) →
    specDedup seen1 l = specDedup seen2 l := by
  induction l with
  | nil => intro _ _ _; rfl
  | cons x rest ih =>
      intro seen1 seen2 h
      cases x with
      | str s =>
          simp only [specDedup]
          by_cases hs : s ∈ seen1
          · rw [if_pos hs, if_pos ((h s).mp hs)]
            exact ih seen1 seen2 h
          · rw [if_neg hs, if_neg (fun hh => hs ((h s).mpr hh))]
            rw [ih (s :: seen1) (s :: seen2) (by intro t; simp [h t])]
      | bool b => simp only [specDedup]; rw [ih seen1 seen2 h]
      | int n => simp only [specDedup]; rw [ih seen1 seen2 h]
      | none => simp only [specDedup]; rw [ih seen1 seen2 h]
      | list xs => simp only [specDedup]; rw [ih seen1 seen2 h]
      | dict kvs => simp only [specDedup]; rw [ih seen1 seen2 h]

theorem toolsListGo_spec (xs : List PyVal) :
    ∀ acc, toolsListGo acc xs = acc ++ specDedup (stringsOf acc) (xs.map specMapEntry) := by
  induction xs with
  | nil => intro acc; simp [toolsListGo, specDedup]
  | cons x rest ih =>
      intro acc
      cases x with
      | str s =>
          simp only [toolsListGo, List.map_cons, specMapEntry, specDedup]
          by_cases h : toolMapGet s ∈ stringsOf acc
          · have hc : pyListContains acc (PyVal.str (toolMapGet s)) = true :=
              (pyListContains_str _ _).mpr h
            simp only [hc, if_true, ih, h, if_pos]
          · have hc : pyListContains acc (PyVal.str (toolMapGet s)) = false := by
              rw [Bool.eq_false_iff]
              intro hc
              exact h ((pyListContains_str _ _).mp hc)
            simp only [hc, Bool.false_eq_true, if_false, ih, h]
            have hstr : stringsOf (acc ++ [PyVal.str (toolMapGet s)]) =
                stringsOf acc ++ [toolMapGet s] := by
              simp [stringsOf, List.filterMap_append]
            rw [hstr]
            rw [specDedup_congr (rest.map specMapEntry)
              (stringsOf acc ++ [toolMapGet s]) (toolMapGet s :: stringsOf acc)
              (by intro t; simp [or_comm])]
            simp
      | bool b =>
          simp only [toolsListGo, List.map_cons, specMapEntry, specDedup, ih]
          have : stringsOf (acc ++ [PyVal.bool b]) = stringsOf acc := by
            simp [stringsOf, List.filterMap_append]
          rw [this]; simp
      | int n =>
          simp only [toolsListGo, List.map_cons, specMapEntry, specDedup, ih]
          have : stringsOf (acc ++ [PyVal.int n]) = stringsOf acc := by
            simp [stringsOf, List.filterMap_append]
          rw [this]; simp
      | none =>
          simp only [toolsListGo, List.map_cons, specMapEntry, specDedup, ih]
          have : stringsOf (acc ++ [PyVal.none]) = stringsOf acc := by
            simp [stringsOf, List.filterMap_append]
          rw [this]; simp
      | list ys =>
          simp only [toolsListGo, List.map_cons, specMapEntry, specDedup, ih]
          have : stringsOf (acc ++ [PyVal.list ys]) = stringsOf acc := by
            simp [stringsOf, List.filterMap_append]
          rw [this]; simp
      | dict kvs =>
          simp only [toolsListGo, List.map_cons, specMapEntry, specDedup, ih]
          have : stringsOf (acc ++ [PyVal.dict kvs]) = stringsOf acc := by
            simp [stringsOf, List.filterMap_append]
          rw [this]; simp

theorem toolsDictGo_spec (kvs : PyDict) :
    ∀ acc, toolsDictGo acc kvs =
      (kvs.filterMap (fun kv =>
        match kv.1 with
        | PyVal.str s => some (PyVal.str (toolMapGet s), kv.2)
        | _ => Option.none)).foldl (fun acc kv => pyDictSet acc kv.1 kv.2) acc := by
  induction kvs with
  | nil => intro acc; rfl
  | cons kv rest ih =>
      intro acc
      obtain ⟨k, v⟩ := kv
      cases k <;> simp only [toolsDictGo, List.filterMap_cons, List.foldl_cons, ih]

/-- C1: a `tools` mapping is rewritten key-by-key through the
tool-name table (lower-cased fallback), values preserved, with Python
dict insertion semantics; a `tools` list is rewritten entry-by-entry
the same way and deduplicated by resulting name keeping
first-occurrence order, non-string entries passing through unchanged;
and the spec example `{"Bash": true, "Read": false}` becomes
`{"bash": true, "read": false}`. -/
theorem claim_C1_tools_rewrite :
    (∀ kvs : PyDict, _transform_tools_for_opencode (PyVal.dict kvs) =
      PyVal.dict (specToolsDict kvs)) ∧
    (∀ xs : List PyVal, _transform_tools_for_opencode (PyVal.list xs) =
      PyVal.list (specToolsList xs)) ∧
    _transform_tools_for_opencode
        (PyVal.dict [(PyVal.str "Bash", PyVal.bool true), (PyVal.str "Read", PyVal.bool false)]) =
      PyVal.dict [(PyVal.str "bash", PyVal.bool true), (PyVal.str "read", PyVal.bool false)] := by
  refine ⟨fun kvs => ?_, fun xs => ?_, by rfl⟩
  · simp only [_transform_tools_for_opencode, specToolsDict, toolsDictGo_spec]
  · simp only [_transform_tools_for_opencode, specToolsList, toolsListGo_spec]
    rfl

/-- Whether a dict entry has a string key. -/
def keyIsString (kv : PyVal × PyVal) : Bool :=
  match kv.1 with
  | PyVal.str _ => true
  | _ => false

theorem toolsDictGo_filter (kvs : PyDict) :
    ∀ acc, toolsDictGo acc kvs = toolsDictGo acc (kvs.filter keyIsString) := by
  induction kvs with
  | nil => intro acc; rfl
  | cons kv rest ih =>
      intro acc
      obtain ⟨k, v⟩ := kv
      cases k <;> simp only [toolsDictGo, List.filter_cons, keyIsString, if_true, if_false,
        Bool.false_eq_true, ih]

/-- C10: in the dict form of the tools rewrite, entries with non-string
keys are silently dropped — the result is the same as if they were
filtered out first, and a mapping whose only key is non-string rewrites
to the empty mapping. -/
theorem claim_C10_nonstring_keys_dropped :
    (∀ kvs : PyDict, _transform_tools_for_opencode (PyVal.dict kvs) =
      _transform_tools_for_opencode (PyVal.dict (kvs.filter keyIsString))) ∧
    _transform_tools_for_opencode (PyVal.dict [(PyVal.int 5, PyVal.bool true)]) =
      PyVal.dict [] := by
  refine ⟨fun kvs => ?_, by rfl⟩
  simp only [_transform_tools_for_opencode]
  rw [toolsDictGo_filter]

theorem dictGet_set_self (d : Dict) (k : String) (v : PyVal) :
    dictGet (dictSet d k v) k = some v := by
  induction d with
  | nil => simp [dictSet, dictGet]
  | cons kv rest ih =>
      obtain ⟨k0, v0⟩ := kv
      by_cases h : k0 = k
      · simp [dictSet, dictGet, h]
      · simp [dictSet, dictGet, h, ih]

theorem dictGet_set_ne (d : Dict) (k k' : String) (v : PyVal) (h : k' ≠ k) :
    dictGet (dictSet d k v) k' = dictGet d k' := by
  induction d with
  | nil =>
      simp only [dictSet, dictGet]
      rw [if_neg (fun hh => h hh.symm)]
  | cons kv rest ih =>
      obtain ⟨k0, v0⟩ := kv
      by_cases h0 : k0 = k
      · subst h0
        simp only [dictSet, if_pos rfl, dictGet]
        rw [if_neg (fun hh : k0 = k' => h hh.symm), if_neg (fun hh : k0 = k' => h hh.symm)]
      · simp only [dictSet, if_neg h0, dictGet, ih]

/-- The value the claim says a string-valued `model` field is rewritten
to: a known shorthand maps through the model table; otherwise a value
with no `/` that is not `"inherit"` gains the `anthropic/` default
namespace; otherwise the value is unchanged. -/
def specModelRewrite (s : String) : String :=
  match tableGet _OPENCODE_MODEL_MAP s with
  | some q => q
  | Option.none => if strContainsChar s '/' || s = "inherit" then s else "anthropic/" ++ s

theorem toolsStep_get_ne (r1 : Dict) (k : String) (hk : k ≠ "tools") :
    dictGet (toolsStep r1) k = dictGet r1 k := by
  unfold toolsStep
  cases ht : dictGet r1 "tools" with
  | none => rfl
  | some t => exact dictGet_set_ne r1 "tools" k _ hk

/-- C3: for a frontmatter whose `model` field holds the string `s`,
`_transform_frontmatter` returns normally (strings are hashable, so no
`TypeError`) and leaves under `model` exactly the claim's rewrite of
`s`: a known shorthand becomes the fixed qualified id, a plain name
with no `/` (other than `"inherit"`) gains the `anthropic/` namespace,
and a value containing `/` is unchanged. -/
theorem claim_C3_model_rewrite (fm : Dict) (s : String)
    (h : dictGet fm "model" = some (PyVal.str s)) :
    ∃ r, _transform_frontmatter fm = some r ∧
      dictGet r "model" = some (PyVal.str (specModelRewrite s)) := by
  have hms : ∃ r1, modelStep fm = some r1 ∧
      dictGet r1 "model" = some (PyVal.str (specModelRewrite s)) := by
    unfold modelStep
    rw [h]
    dsimp only
    cases hm : tableGet _OPENCODE_MODEL_MAP s with
    | some q =>
        refine ⟨dictSet fm "model" (PyVal.str q), rfl, ?_⟩
        simp only [specModelRewrite, hm]
        exact dictGet_set_self fm "model" (PyVal.str q)
    | none =>
        by_cases hs : strContainsChar s '/' = true
        · refine ⟨fm, ?_, ?_⟩
          · dsimp only
            rw [if_neg (by simp [hs])]
          · simp only [specModelRewrite, hm, hs, Bool.true_or, if_true]
            exact h
        · have hs' : strContainsChar s '/' = false := by
            cases hc : strContainsChar s '/' with
            | false => rfl
            | true => exact absurd hc hs
          by_cases hi : s = "inherit"
          · exfalso
            subst hi
            exact absurd hm (by decide)
          · refine ⟨dictSet fm "model" (PyVal.str ("anthropic/" ++ s)), ?_, ?_⟩
            · dsimp only
              rw [if_pos (by simp [hs', hi])]
            · simp only [specModelRewrite, hm, hs', Bool.false_eq_true, false_or, hi,
                Bool.false_or, decide_False, if_false]
              exact dictGet_set_self fm "model" _
  obtain ⟨r1, hr1, hg⟩ := hms
  refine ⟨toolsStep r1, ?_, ?_⟩
  · unfold _transform_frontmatter
    rw [hr1]
    rfl
  · rw [toolsStep_get_ne _ _ (by decide)]
    exact hg

/-- C3 witness: the three spec examples, on one-field frontmatters:
`sonnet` becomes the mapped qualified id, `custom-model` gains the
default namespace, and `vendor/custom` is unchanged. -/
theorem claim_C3_model_rewrite_witness :
    ((_transform_frontmatter [("model", PyVal.str "sonnet")]).bind
      (fun r => dictGet r "model")) = some (PyVal.str "anthropic/claude-sonnet-4-5") ∧
    ((_transform_frontmatter [("model", PyVal.str "custom-model")]).bind
      (fun r => dictGet r "model")) = some (PyVal.str "anthropic/custom-model") ∧
    ((_transform_frontmatter [("model", PyVal.str "vendor/custom")]).bind
      (fun r => dictGet r "model")) = some (PyVal.str "vendor/custom") := by
  refine ⟨?_, ?_, ?_⟩
  · obtain ⟨r, hr, hg⟩ := claim_C3_model_rewrite [("model", PyVal.str "sonnet")] "sonnet" (by rfl)
    rw [hr]
    exact hg
  · obtain ⟨r, hr, hg⟩ := claim_C3_model_rewrite [("model", PyVal.str "custom-model")] "custom-model" (by rfl)
    rw [hr]
    exact hg
  · obtain ⟨r, hr, hg⟩ := claim_C3_model_rewrite [("model", PyVal.str "vendor/custom")] "vendor/custom" (by rfl)
    rw [hr]
    exact hg

/-- The key list of a string-keyed dict. -/
def keysOf (d : Dict) : List String := d.map Prod.fst

theorem dictContains_iff_mem (d : Dict) (k : String) :
    dictContains d k = true ↔ k ∈ keysOf d := by
  induction d with
  | nil => simp [dictContains, dictGet, keysOf]
  | cons kv rest ih =>
      obtain ⟨k0, v0⟩ := kv
      by_cases h : k0 = k
      · subst h; simp [dictContains, dictGet, keysOf]
      · simp only [dictContains, dictGet, if_neg h, keysOf, List.map_cons, List.mem_cons]
        rw [← keysOf, ← dictContains, ih]
        simp [Ne.symm h]

theorem dictSet_keys_of_get (d : Dict) (k : String) (v : PyVal) :
    (dictGet d k).isSome = true → keysOf (dictSet d k v) = keysOf d := by
  induction d with
  | nil => simp [dictGet]
  | cons kv rest ih =>
      obtain ⟨k0, v0⟩ := kv
      by_cases h : k0 = k
      · simp [dictSet, dictGet, h, keysOf]
      · simp only [dictSet, if_neg h, dictGet, keysOf, List.map_cons]
        intro hs
        rw [← keysOf, ← keysOf, ih hs]

theorem dictSet_keys_of_absent (d : Dict) (k : String) (v : PyVal)
    (h : dictGet d k = Option.none) : keysOf (dictSet d k v) = keysOf d ++ [k] := by
  induction d with
  | nil => simp [dictSet, keysOf]
  | cons kv rest ih =>
      obtain ⟨k0, v0⟩ := kv
      by_cases h0 : k0 = k
      · simp [dictGet, h0] at h
      · simp only [dictGet, if_neg h0] at h
        simp only [dictSet, if_neg h0, keysOf, List.map_cons, List.cons_append,
          List.cons.injEq, true_and]
        exact ih h

theorem dictGet_pop_ne (d : Dict) (k k' : String) (h : k' ≠ k) :
    dictGet (dictPop d k) k' = dictGet d k' := by
  induction d with
  | nil => rfl
  | cons kv rest ih =>
      obtain ⟨k0, v0⟩ := kv
      by_cases h0 : k0 = k
      · subst h0
        rw [show dictPop ((k0, v0) :: rest) k0 = rest from by simp [dictPop]]
        simp only [dictGet]
        rw [if_neg (fun hh : k0 = k' => h hh.symm)]
      · simp only [dictPop, if_neg h0, dictGet, ih]

theorem dictPop_sublist (d : Dict) (k : String) : (dictPop d k).Sublist d := by
  induction d with
  | nil => simp [dictPop]
  | cons kv rest ih =>
      obtain ⟨k0, v0⟩ := kv
      by_cases h0 : k0 = k
      · simp only [dictPop, if_pos h0]
        exact (List.sublist_cons_self _ _)
      · simp only [dictPop, if_neg h0]
        exact ih.cons₂ _

theorem dictGet_none_iff (d : Dict) (k : String) :
    dictGet d k = Option.none ↔ k ∉ keysOf d := by
  rw [← dictContains_iff_mem]
  simp [dictContains, Option.isSome_iff_exists]
  constructor
  · intro h; rw [h]; simp
  · intro h
    cases hd : dictGet d k with
    | none => rfl
    | some v => rw [hd] at h; simp at h

theorem dictGet_pop_self (d : Dict) (k : String) (h : (keysOf d).Nodup) :
    dictGet (dictPop d k) k = Option.none := by
  induction d with
  | nil => rfl
  | cons kv rest ih =>
      obtain ⟨k0, v0⟩ := kv
      simp only [keysOf, List.map_cons, List.nodup_cons] at h
      by_cases h0 : k0 = k
      · subst h0
        simp only [dictPop, if_pos rfl]
        rw [dictGet_none_iff]
        exact h.1
      · simp only [dictPop, if_neg h0, dictGet, if_neg h0]
        exact ih h.2

theorem dictPop_nodup (d : Dict) (k : String) (h : (keysOf d).Nodup) :
    (keysOf (dictPop d k)).Nodup := by
  have hs : (keysOf (dictPop d k)).Sublist (keysOf d) := (dictPop_sublist d k).map _
  exact hs.nodup h

theorem dictGet_pop_none (d : Dict) (k k' : String) (h : dictGet d k' = Option.none) :
    dictGet (dictPop d k) k' = Option.none := by
  induction d with
  | nil => rfl
  | cons kv rest ih =>
      obtain ⟨k0, v0⟩ := kv
      by_cases h0 : k0 = k
      · subst h0
        simp only [dictPop, if_pos rfl]
        simp only [dictGet] at h
        split at h
        · exact absurd h (by simp)
        · exact h
      · simp only [dictGet] at h
        split at h
        · exact absurd h (by simp)
        · simp only [dictPop, if_neg h0, dictGet]
          rw [if_neg (by assumption)]
          exact ih h

theorem popList_get_ne (fields : List String) (d : Dict) (k : String) (hk : k ∉ fields) :
    dictGet (fields.foldl dictPop d) k = dictGet d k := by
  induction fields generalizing d with
  | nil => rfl
  | cons f rest ih =>
      simp only [List.mem_cons, not_or] at hk
      simp only [List.foldl_cons]
      rw [ih _ hk.2, dictGet_pop_ne _ _ _ hk.1]

theorem popList_nodup (fields : List String) (d : Dict) (h : (keysOf d).Nodup) :
    (keysOf (fields.foldl dictPop d)).Nodup := by
  induction fields generalizing d with
  | nil => exact h
  | cons f rest ih =>
      simp only [List.foldl_cons]
      exact ih _ (dictPop_nodup d f h)

theorem popList_get_none (fields : List String) (d : Dict) (k : String)
    (h : dictGet d k = Option.none) :
    dictGet (fields.foldl dictPop d) k = Option.none := by
  induction fields generalizing d with
  | nil => exact h
  | cons f rest ih =>
      simp only [List.foldl_cons]
      exact ih _ (dictGet_pop_none d f k h)

theorem popList_contains_mem (fields : List String) (d : Dict) (f : String)
    (h : (keysOf d).Nodup) (hf : f ∈ fields) :
    dictGet (fields.foldl dictPop d) f = Option.none := by
  induction fields generalizing d with
  | nil => simp at hf
  | cons g rest ih =>
      simp only [List.foldl_cons]
      by_cases hg : f = g
      · subst hg
        exact popList_get_none rest _ f (dictGet_pop_self d f h)
      · have : f ∈ rest := by
          rcases List.mem_cons.mp hf with h1 | h1
          · exact absurd h1 hg
          · exact h1
        exact ih _ (dictPop_nodup d g h) this

theorem dictContains_false_iff (d : Dict) (k : String) :
    dictContains d k = false ↔ dictGet d k = Option.none := by
  unfold dictContains
  cases dictGet d k <;> simp

theorem modelStep_keys (fm r1 : Dict) (h : modelStep fm = some r1) :
    keysOf r1 = keysOf fm := by
  unfold modelStep at h
  cases hm : dictGet fm "model" with
  | none =>
      rw [hm] at h
      dsimp only at h
      cases h
      rfl
  | some m =>
      rw [hm] at h
      cases m with
      | str s =>
          dsimp only at h
          cases ht : tableGet _OPENCODE_MODEL_MAP s with
          | some q =>
              rw [ht] at h
              dsimp only at h
              cases h
              exact dictSet_keys_of_get fm "model" _ (by rw [hm]; rfl)
          | none =>
              rw [ht] at h
              dsimp only at h
              split at h
              · cases h
                exact dictSet_keys_of_get fm "model" _ (by rw [hm]; rfl)
              · cases h
                rfl
      | list xs => dsimp only at h; cases h
      | dict kvs => dsimp only at h; cases h
      | bool b =>
          dsimp only at h
          split at h
          · cases h
            exact dictSet_keys_of_get fm "model" _ (by rw [hm]; rfl)
          · cases h
            rfl
      | int n =>
          dsimp only at h
          split at h
          · cases h
            exact dictSet_keys_of_get fm "model" _ (by rw [hm]; rfl)
          · cases h
            rfl
      | none =>
          dsimp only at h
          split at h
          · cases h
            exact dictSet_keys_of_get fm "model" _ (by rw [hm]; rfl)
          · cases h
            rfl

theorem toolsStep_keys (fm : Dict) : keysOf (toolsStep fm) = keysOf fm := by
  unfold toolsStep
  cases ht : dictGet fm "tools" with
  | none => rfl
  | some t => exact dictSet_keys_of_get fm "tools" _ (by rw [ht]; rfl)

theorem tf_keys (fm r : Dict) (h : _transform_frontmatter fm = some r) :
    keysOf r = keysOf fm := by
  unfold _transform_frontmatter at h
  cases hm : modelStep fm with
  | none => rw [hm] at h; cases h
  | some r1 =>
      rw [hm] at h
      dsimp only [Option.map] at h
      cases h
      rw [toolsStep_keys, modelStep_keys fm r1 hm]

theorem modelStep_get_ne (fm r1 : Dict) (k : String) (hk : k ≠ "model")
    (h : modelStep fm = some r1) : dictGet r1 k = dictGet fm k := by
  unfold modelStep at h
  cases hm : dictGet fm "model" with
  | none =>
      rw [hm] at h
      dsimp only at h
      cases h
      rfl
  | some m =>
      rw [hm] at h
      cases m with
      | str s =>
          dsimp only at h
          cases ht : tableGet _OPENCODE_MODEL_MAP s with
          | some q =>
              rw [ht] at h
              dsimp only at h
              cases h
              exact dictGet_set_ne fm "model" k _ hk
          | none =>
              rw [ht] at h
              dsimp only at h
              split at h
              · cases h
                exact dictGet_set_ne fm "model" k _ hk
              · cases h
                rfl
      | list xs => dsimp only at h; cases h
      | dict kvs => dsimp only at h; cases h
      | bool b =>
          dsimp only at h
          split at h
          · cases h
            exact dictGet_set_ne fm "model" k _ hk
          · cases h
            rfl
      | int n =>
          dsimp only at h
          split at h
          · cases h
            exact dictGet_set_ne fm "model" k _ hk
          · cases h
            rfl
      | none =>
          dsimp only at h
          split at h
          · cases h
            exact dictGet_set_ne fm "model" k _ hk
          · cases h
            rfl

theorem tf_get_ne (fm r : Dict) (k : String) (h1 : k ≠ "model") (h2 : k ≠ "tools")
    (h : _transform_frontmatter fm = some r) : dictGet r k = dictGet fm k := by
  unfold _transform_frontmatter at h
  cases hm : modelStep fm with
  | none => rw [hm] at h; cases h
  | some r1 =>
      rw [hm] at h
      dsimp only [Option.map] at h
      cases h
      rw [toolsStep_get_ne _ _ h2, modelStep_get_ne fm r1 k h1 hm]

theorem ifSome (c : Prop) [Decidable c] (a b : Dict) :
    ∃ r, (if c then some a else some b) = some r := by
  by_cases h : c
  · exact ⟨a, by rw [if_pos h]⟩
  · exact ⟨b, by rw [if_neg h]⟩

/-- The model step returns normally exactly on the frontmatters whose
`model` value (if any) is hashable. -/
theorem modelStep_total (fm : Dict)
    (hmod : ∀ m, dictGet fm "model" = some m → pyHashable m = true) :
    ∃ r1, modelStep fm = some r1 := by
  unfold modelStep
  cases hm : dictGet fm "model" with
  | none => exact ⟨fm, rfl⟩
  | some m =>
      cases m with
      | str s =>
          dsimp only
          cases ht : tableGet _OPENCODE_MODEL_MAP s with
          | some q => exact ⟨_, rfl⟩
          | none => exact ifSome _ _ _
      | list xs =>
          have := hmod _ hm
          simp [pyHashable] at this
      | dict kvs =>
          have := hmod _ hm
          simp [pyHashable] at this
      | bool b => exact ifSome _ _ _
      | int n => exact ifSome _ _ _
      | none => exact ifSome _ _ _

theorem tf_total (fm : Dict)
    (hmod : ∀ m, dictGet fm "model" = some m → pyHashable m = true) :
    ∃ r, _transform_frontmatter fm = some r := by
  obtain ⟨r1, hr1⟩ := modelStep_total fm hmod
  refine ⟨toolsStep r1, ?_⟩
  unfold _transform_frontmatter
  rw [hr1]
  rfl

/-- The `type`-conversion and drop-list steps of the agent rewrite
(both total), characterized on an arbitrary dict with no duplicate
keys. -/
theorem agentSteps_props (rf : Dict) (hNr : (keysOf rf).Nodup) :
    (dictGet rf "type" = some (PyVal.str "subagent") → dictGet rf "mode" = Option.none →
      dictGet (agentDropFields.foldl dictPop (typeStep rf)) "mode" =
        some (PyVal.str "subagent") ∧
      dictGet (agentDropFields.foldl dictPop (typeStep rf)) "type" = Option.none) ∧
    (dictGet rf "type" = some (PyVal.str "primary") → dictGet rf "mode" = Option.none →
      dictGet (agentDropFields.foldl dictPop (typeStep rf)) "mode" =
        some (PyVal.str "primary") ∧
      dictGet (agentDropFields.foldl dictPop (typeStep rf)) "type" = Option.none) ∧
    (∀ m, dictGet rf "mode" = some m →
      dictGet (agentDropFields.foldl dictPop (typeStep rf)) "mode" = some m) ∧
    (∀ f, f ∈ agentDropFields →
      dictGet (agentDropFields.foldl dictPop (typeStep rf)) f = Option.none) := by
  refine ⟨?_, ?_, ?_, ?_⟩
  · intro ht1 hm1
    have hm0 : dictGet (dictPop rf "type") "mode" = Option.none := by
      rw [dictGet_pop_ne _ _ _ (by decide)]; exact hm1
    have hstep : typeStep rf =
        dictSet (dictPop rf "type") "mode" (PyVal.str "subagent") := by
      unfold typeStep
      rw [ht1]
      dsimp only
      rw [if_pos ⟨rfl, by rw [(dictContains_false_iff _ _).mpr hm0]; rfl⟩]
    rw [hstep]
    constructor
    · rw [popList_get_ne _ _ _ (by decide), dictGet_set_self]
    · have hty : dictGet (dictSet (dictPop rf "type") "mode"
          (PyVal.str "subagent")) "type" = Option.none := by
        rw [dictGet_set_ne _ _ _ _ (by decide)]
        exact dictGet_pop_self _ _ hNr
      exact popList_get_none _ _ _ hty
  · intro ht1 hm1
    have hm0 : dictGet (dictPop rf "type") "mode" = Option.none := by
      rw [dictGet_pop_ne _ _ _ (by decide)]; exact hm1
    have hstep : typeStep rf =
        dictSet (dictPop rf "type") "mode" (PyVal.str "primary") := by
      unfold typeStep
      rw [ht1]
      dsimp only
      rw [if_neg (fun hc => by exact absurd hc.1 (by decide))]
      rw [if_pos ⟨rfl, by rw [(dictContains_false_iff _ _).mpr hm0]; rfl⟩]
    rw [hstep]
    constructor
    · rw [popList_get_ne _ _ _ (by decide), dictGet_set_self]
    · have hty : dictGet (dictSet (dictPop rf "type") "mode"
          (PyVal.str "primary")) "type" = Option.none := by
        rw [dictGet_set_ne _ _ _ _ (by decide)]
        exact dictGet_pop_self _ _ hNr
      exact popList_get_none _ _ _ hty
  · intro m hm1
    rw [popList_get_ne _ _ _ (by decide)]
    unfold typeStep
    cases htp : dictGet rf "type" with
    | none => exact hm1
    | some t =>
        have hm0 : dictGet (dictPop rf "type") "mode" = some m := by
          rw [dictGet_pop_ne _ _ _ (by decide)]; exact hm1
        have hcont : dictContains (dictPop rf "type") "mode" = true := by
          unfold dictContains; rw [hm0]; rfl
        dsimp only
        rw [if_neg (fun hc => by rw [hcont] at hc; exact absurd hc.2 (by decide))]
        rw [if_neg (fun hc => by rw [hcont] at hc; exact absurd hc.2 (by decide))]
        exact hm0
  · intro f hf
    have hN1 : (keysOf (typeStep rf)).Nodup := by
      unfold typeStep
      cases htp : dictGet rf "type" with
      | none => exact hNr
      | some t =>
          have hN0 : (keysOf (dictPop rf "type")).Nodup :=
            dictPop_nodup _ _ hNr
          dsimp only
          split
          · next hc =>
              have habs : dictGet (dictPop rf "type") "mode" =
                  Option.none := by
                rcases hc with ⟨_, hb⟩
                rw [← dictContains_false_iff]
                cases hcm : dictContains (dictPop rf "type") "mode"
                · rfl
                · rw [hcm] at hb; exact absurd hb (by decide)
              rw [dictSet_keys_of_absent _ _ _ habs]
              rw [List.nodup_append]
              refine ⟨hN0, by decide, ?_⟩
              intro a ha hb
              simp only [List.mem_singleton] at hb
              subst hb
              exact absurd ((dictGet_none_iff _ _).mp habs) (by intro hh; exact hh ha)
          · split
            · next hc =>
                have habs : dictGet (dictPop rf "type") "mode" =
                    Option.none := by
                  rcases hc with ⟨_, hb⟩
                  rw [← dictContains_false_iff]
                  cases hcm : dictContains (dictPop rf "type") "mode"
                  · rfl
                  · rw [hcm] at hb; exact absurd hb (by decide)
                rw [dictSet_keys_of_absent _ _ _ habs]
                rw [List.nodup_append]
                refine ⟨hN0, by decide, ?_⟩
                intro a ha hb
                simp only [List.mem_singleton] at hb
                subst hb
                exact absurd ((dictGet_none_iff _ _).mp habs) (by intro hh; exact hh ha)
            · exact hN0
    exact popList_contains_mem _ _ _ hN1 hf

/-- C6: for an agent frontmatter with no duplicate keys whose `model`
value (if any) is hashable (the unhashable case makes the Python raise
`TypeError` before any of the agent steps run), the transform returns
normally and: a `type` of `"subagent"` or `"primary"` becomes `mode`
with the same value when `mode` is not already set (and `type` is gone
from the result); an existing `mode` survives untouched; the drop-list
fields `version`, `last_updated`, `changelog` and `output_schema` are
absent from the result. -/
theorem claim_C6_agent_frontmatter (fm : Dict) (hwf : (keysOf fm).Nodup)
    (hmod : ∀ m, dictGet fm "model" = some m → pyHashable m = true) :
    ∃ r, _transform_agent_frontmatter fm = some r ∧
      ((dictGet fm "type" = some (PyVal.str "subagent") → dictContains fm "mode" = false →
        dictGet r "mode" = some (PyVal.str "subagent") ∧ dictContains r "type" = false) ∧
       (dictGet fm "type" = some (PyVal.str "primary") → dictContains fm "mode" = false →
        dictGet r "mode" = some (PyVal.str "primary") ∧ dictContains r "type" = false) ∧
       (∀ m, dictGet fm "mode" = some m → dictGet r "mode" = some m) ∧
       (∀ f, f ∈ agentDropFields → dictContains r f = false)) := by
  obtain ⟨rf, hrf⟩ := tf_total fm hmod
  have hKr : keysOf rf = keysOf fm := tf_keys fm rf hrf
  have hNr : (keysOf rf).Nodup := by rw [hKr]; exact hwf
  have hgt : dictGet rf "type" = dictGet fm "type" :=
    tf_get_ne fm rf "type" (by decide) (by decide) hrf
  have hgm : dictGet rf "mode" = dictGet fm "mode" :=
    tf_get_ne fm rf "mode" (by decide) (by decide) hrf
  have hp := agentSteps_props rf hNr
  refine ⟨agentDropFields.foldl dictPop (typeStep rf), ?_, ?_, ?_, ?_, ?_⟩
  · unfold _transform_agent_frontmatter
    rw [hrf]
    rfl
  · intro ht hm
    have h1 := hp.1 (by rw [hgt]; exact ht)
      (by rw [hgm]; exact (dictContains_false_iff fm "mode").mp hm)
    exact ⟨h1.1, by unfold dictContains; rw [h1.2]; rfl⟩
  · intro ht hm
    have h1 := hp.2.1 (by rw [hgt]; exact ht)
      (by rw [hgm]; exact (dictContains_false_iff fm "mode").mp hm)
    exact ⟨h1.1, by unfold dictContains; rw [h1.2]; rfl⟩
  · intro m hm
    exact hp.2.2.1 m (by rw [hgm]; exact hm)
  · intro f hf
    unfold dictContains
    rw [hp.2.2.2 f hf]
    rfl

/-- C6 witness: an agent frontmatter `{type: "subagent", version: 1}`
transforms without raising, gains `mode: "subagent"` and loses both
`type` and `version`. -/
theorem claim_C6_agent_frontmatter_witness :
    ∃ r, _transform_agent_frontmatter
        [("type", PyVal.str "subagent"), ("version", PyVal.int 1)] = some r ∧
      dictGet r "mode" = some (PyVal.str "subagent") ∧
      dictContains r "type" = false ∧
      dictContains r "version" = false := by
  obtain ⟨r, hr, hp⟩ := claim_C6_agent_frontmatter
    [("type", PyVal.str "subagent"), ("version", PyVal.int 1)] (by decide)
    (fun m hm => by simp [dictGet] at hm)
  exact ⟨r, hr, (hp.1 (by rfl) (by rfl)).1, (hp.1 (by rfl) (by rfl)).2,
    hp.2.2.2 "version" (by decide)⟩

/-- C2 counterexample: a document with no metadata block whose body
mentions the Bash tool is NOT returned unchanged by `transform_skill`
(nor by `transform_agent` or `transform_command`): the body-text
tool-name normalization still runs and lower-cases `Bash`. -/
theorem claim_C2_counterexample :
    transform_skill ⟨[], "Use the Bash tool."⟩ ≠ some "Use the Bash tool." ∧
    transform_skill ⟨[], "Use the Bash tool."⟩ = some "Use the bash tool." ∧
    transform_agent ⟨[], "Use the Bash tool."⟩ = some "Use the bash tool." ∧
    transform_command ⟨[], "Use the Bash tool."⟩ = some "Use the bash tool." := by
  refine ⟨by decide, by decide, by decide, by decide⟩

/-- C2 amended: for every document lacking a metadata block, each of
the three transforms returns (normally — nothing can raise on this
path) exactly the body with the tool-reference normalization applied
(no metadata is added); in particular the body is returned unchanged
precisely when the normalization does not change it. -/
theorem claim_C2_amended : ∀ body : String,
    transform_skill ⟨[], body⟩ = some (_normalize_tool_references body) ∧
    transform_agent ⟨[], body⟩ = some (_normalize_tool_references body) ∧
    transform_command ⟨[], body⟩ = some (_normalize_tool_references body) :=
  fun _ => ⟨rfl, rfl, rfl⟩

/-- Whether `pat` occurs as contiguous text anywhere in `s`. -/
def containsSeq (pat : List Char) : List Char → Bool
  | [] => pat.isEmpty
  | c :: cs => pat.isPrefixOf (c :: cs) || containsSeq pat cs

theorem containsSeq_nil_of_ne (pat : List Char) (h : pat ≠ []) : containsSeq pat [] = false := by
  cases pat with
  | nil => exact absurd rfl h
  | cons p ps => rfl

theorem containsSeq_cons_false (pat : List Char) (c : Char) (cs : List Char)
    (h : containsSeq pat (c :: cs) = false) :
    pat.isPrefixOf (c :: cs) = false ∧ containsSeq pat cs = false := by
  unfold containsSeq at h
  constructor
  · cases hp : pat.isPrefixOf (c :: cs) with
    | false => rfl
    | true => rw [hp] at h; simp at h
  · cases hi : containsSeq pat cs with
    | false => rfl
    | true => rw [hi] at h; simp at h

theorem containsSeq_drop (pat : List Char) (h : pat ≠ []) :
    ∀ (s : List Char) (n : Nat), containsSeq pat s = false → containsSeq pat (List.drop n s) = false := by
  intro s
  induction s with
  | nil => intro n hs; simpa [List.drop_nil] using hs
  | cons c cs ih =>
      intro n hs
      cases n with
      | zero => exact hs
      | succ n =>
          rw [List.drop_succ_cons]
          exact ih n (containsSeq_cons_false pat c cs hs).2

theorem containsSeq_append_left (q repl X : List Char) (hq : q ≠ [])
    (hd : ∀ c ∈ q, c ∉ repl) (hX : containsSeq q X = false) :
    containsSeq q (repl ++ X) = false := by
  induction repl with
  | nil => simpa using hX
  | cons r rs ih =>
      have hrs : ∀ c ∈ q, c ∉ rs := fun c hc hm => hd c hc (List.mem_cons_of_mem r hm)
      simp only [List.cons_append]
      unfold containsSeq
      rw [ih hrs]
      cases q with
      | nil => exact absurd rfl hq
      | cons q0 q' =>
          have hq0 : q0 ≠ r := fun hh =>
            hd q0 (List.mem_cons_self q0 q') (hh ▸ List.mem_cons_self r rs)
          have : (q0 :: q').isPrefixOf (r :: (rs ++ X)) = false := by
            simp [List.isPrefixOf, hq0]
          rw [this]
          rfl

theorem replaceFuel_prefix_rev (pat repl : List Char) (hpat : pat ≠ []) (hrepl : repl ≠ []) :
    ∀ (fuel : Nat) (s q : List Char), s.length ≤ fuel → q ≠ [] → (∀ c ∈ q, c ∉ repl) →
      q.isPrefixOf (replaceFuel pat repl fuel s) = true → q.isPrefixOf s = true := by
  intro fuel
  induction fuel with
  | zero => intro s q _ _ _ hp; exact hp
  | succ fuel ih =>
      intro s q hlen hq hd hp
      cases s with
      | nil =>
          unfold replaceFuel at hp
          cases q with
          | nil => exact absurd rfl hq
          | cons q0 q' => simp [List.isPrefixOf] at hp
      | cons c cs =>
          unfold replaceFuel at hp
          split at hp
          · -- replacement happened: q would have to start inside repl
            cases q with
            | nil => exact absurd rfl hq
            | cons q0 q' =>
                cases repl with
                | nil => exact absurd rfl hrepl
                | cons r0 r' =>
                    simp only [List.cons_append, List.isPrefixOf, Bool.and_eq_true, beq_iff_eq] at hp
                    exact absurd (hp.1 ▸ List.mem_cons_self r0 r')
                      (hd q0 (List.mem_cons_self q0 q'))
          · cases q with
            | nil => exact absurd rfl hq
            | cons q0 q' =>
                simp only [List.isPrefixOf, Bool.and_eq_true, beq_iff_eq] at hp
                obtain ⟨hq0, hp'⟩ := hp
                cases hq' : q' == [] with
                | true =>
                    have : q' = [] := by simpa using hq'
                    subst this
                    simp [List.isPrefixOf, hq0]
                | false =>
                    have hq'ne : q' ≠ [] := by
                      intro hh; subst hh; simp at hq'
                    have hd' : ∀ c ∈ q', c ∉ repl :=
                      fun c hc => hd c (List.mem_cons_of_mem q0 hc)
                    have hcs : cs.length ≤ fuel := by
                      simp only [List.length_cons] at hlen; omega
                    have := ih cs q' hcs hq'ne hd' hp'
                    simp [List.isPrefixOf, hq0, this]

theorem replaceFuel_no_new (pat repl q : List Char) (hpat : pat ≠ []) (hrepl : repl ≠ [])
    (hq : q ≠ []) (hd : ∀ c ∈ q, c ∉ repl) :
    ∀ (fuel : Nat) (s : List Char), s.length ≤ fuel → containsSeq q s = false →
      containsSeq q (replaceFuel pat repl fuel s) = false := by
  intro fuel
  induction fuel with
  | zero => intro s _ hs; exact hs
  | succ fuel ih =>
      intro s hlen hs
      cases s with
      | nil => exact containsSeq_nil_of_ne q hq
      | cons c cs =>
          unfold replaceFuel
          split
          · next hpre =>
              have hrest : containsSeq q (List.drop pat.length (c :: cs)) = false :=
                containsSeq_drop q hq _ _ hs
              have hlen2 : (List.drop pat.length (c :: cs)).length ≤ fuel := by
                rw [List.length_drop]
                simp only [List.length_cons] at hlen ⊢
                cases pat with
                | nil => exact absurd rfl hpat
                | cons p ps => simp; omega
              exact containsSeq_append_left q repl _ hq hd (ih _ hlen2 hrest)
          · next hpre =>
              obtain ⟨hp1, hs'⟩ := containsSeq_cons_false q c cs hs
              have hcs : cs.length ≤ fuel := by
                simp only [List.length_cons] at hlen; omega
              unfold containsSeq
              rw [ih cs hcs hs']
              cases q with
              | nil => exact absurd rfl hq
              | cons q0 q' =>
                  cases hq0 : q0 == c with
                  | false => simp [List.isPrefixOf, hq0]
                  | true =>
                      have hq0' : q0 = c := by simpa using hq0
                      cases hq'e : q' == [] with
                      | true =>
                          have : q' = [] := by simpa using hq'e
                          subst this
                          subst hq0'
                          simp [List.isPrefixOf] at hp1
                      | false =>
                          have hq'ne : q' ≠ [] := by
                            intro hh; subst hh; simp at hq'e
                          cases hpq : q'.isPrefixOf (replaceFuel pat repl fuel cs) with
                          | false => simp [List.isPrefixOf, hpq]
                          | true =>
                              have := replaceFuel_prefix_rev pat repl hpat hrepl fuel cs q'
                                hcs hq'ne (fun x hx => hd x (List.mem_cons_of_mem q0 hx)) hpq
                              subst hq0'
                              simp [List.isPrefixOf, this] at hp1

theorem replaceFuel_self_gone (pat repl : List Char) (hpat : pat ≠ []) (hrepl : repl ≠ [])
    (hd : ∀ c ∈ pat, c ∉ repl) :
    ∀ (fuel : Nat) (s : List Char), s.length ≤ fuel →
      containsSeq pat (replaceFuel pat repl fuel s) = false := by
  intro fuel
  induction fuel with
  | zero =>
      intro s hlen
      have : s = [] := by
        cases s with
        | nil => rfl
        | cons c cs => simp at hlen
      subst this
      exact containsSeq_nil_of_ne pat hpat
  | succ fuel ih =>
      intro s hlen
      cases s with
      | nil => exact containsSeq_nil_of_ne pat hpat
      | cons c cs =>
          unfold replaceFuel
          split
          · next hpre =>
              have hlen2 : (List.drop pat.length (c :: cs)).length ≤ fuel := by
                rw [List.length_drop]
                simp only [List.length_cons] at hlen ⊢
                cases pat with
                | nil => exact absurd rfl hpat
                | cons p ps => simp; omega
              exact containsSeq_append_left pat repl _ hpat hd (ih _ hlen2)
          · next hpre =>
              have hcs : cs.length ≤ fuel := by
                simp only [List.length_cons] at hlen; omega
              unfold containsSeq
              rw [ih cs hcs]
              cases pat with
              | nil => exact absurd rfl hpat
              | cons p0 p' =>
                  cases hp0 : p0 == c with
                  | false => simp [List.isPrefixOf, hp0]
                  | true =>
                      have hp0' : p0 = c := by simpa using hp0
                      cases hp'e : p' == [] with
                      | true =>
                          have : p' = [] := by simpa using hp'e
                          subst this
                          subst hp0'
                          simp [List.isPrefixOf] at hpre
                      | false =>
                          have hp'ne : p' ≠ [] := by
                            intro hh; subst hh; simp at hp'e
                          cases hpq : p'.isPrefixOf (replaceFuel (p0 :: p') repl fuel cs) with
                          | false => simp [List.isPrefixOf, hpq]
                          | true =>
                              have := replaceFuel_prefix_rev (p0 :: p') repl hpat hrepl fuel cs p'
                                hcs hp'ne (fun x hx => hd x (List.mem_cons_of_mem p0 hx)) hpq
                              subst hp0'
                              simp [List.isPrefixOf, this] at hpre

/-- C4: `transform_hook` applies the four plain-text substitutions in
source order (hooks-subdirectory forms first, then bare placeholder
forms), and for every input the output contains no occurrence of the
placeholder, braced or unbraced; the two closed conjuncts check the
spec's positive examples. -/
theorem claim_C4_transform_hook : ∀ s : String,
    (transform_hook s =
      pyReplace (pyReplace (pyReplace
        (pyReplace s "${CLAUDE_PLUGIN_ROOT}/hooks/" "bash ~/.config/opencode/hook/")
        "$CLAUDE_PLUGIN_ROOT/hooks/" "bash ~/.config/opencode/hook/")
        "${CLAUDE_PLUGIN_ROOT}" "~/.config/opencode")
        "$CLAUDE_PLUGIN_ROOT" "~/.config/opencode") ∧
    containsSeq "${CLAUDE_PLUGIN_ROOT}".data (transform_hook s).data = false ∧
    containsSeq "$CLAUDE_PLUGIN_ROOT".data (transform_hook s).data = false ∧
    transform_hook "${CLAUDE_PLUGIN_ROOT}/hooks/check.sh" =
      "bash ~/.config/opencode/hook/check.sh" ∧
    transform_hook "$CLAUDE_PLUGIN_ROOT and ${CLAUDE_PLUGIN_ROOT}" =
      "~/.config/opencode and ~/.config/opencode" := by
  intro s
  have hd3 : ∀ c ∈ "${CLAUDE_PLUGIN_ROOT}".data, c ∉ "~/.config/opencode".data := by decide
  have hd4 : ∀ c ∈ "$CLAUDE_PLUGIN_ROOT".data, c ∉ "~/.config/opencode".data := by decide
  refine ⟨rfl, ?_, ?_, by decide, by decide⟩
  · exact replaceFuel_no_new "$CLAUDE_PLUGIN_ROOT".data "~/.config/opencode".data
      "${CLAUDE_PLUGIN_ROOT}".data (by decide) (by decide) (by decide) hd3 _ _ (le_refl _)
      (replaceFuel_self_gone "${CLAUDE_PLUGIN_ROOT}".data "~/.config/opencode".data
        (by decide) (by decide) hd3 _ _ (le_refl _))
  · exact replaceFuel_self_gone "$CLAUDE_PLUGIN_ROOT".data "~/.config/opencode".data
      (by decide) (by decide) hd4 _ _ (le_refl _)

/-- C7: with an environment override set, `get_install_path` returns
the configured default whenever the resolved override does not have the
resolved home directory as a component-wise ancestor (the semantics of
`Path.relative_to`), and returns the override when it does.  The check
is on path components, not string text, so `/home/userX` is outside a
home of `/home/user`. -/
theorem claim_C7_install_path (e : PathEnv) (cand : List String)
    (h : e.override = some cand) :
    (e.home.isPrefixOf cand = false → get_install_path e = e.defaultPath) ∧
    (e.home.isPrefixOf cand = true → get_install_path e = cand) := by
  constructor
  · intro hb
    unfold get_install_path
    rw [h]
    simp [hb]
  · intro hb
    unfold get_install_path
    rw [h]
    simp [hb]

/-- C7 witness: with home `/home/user`, the override `/home/userX`
(a string-prefix false positive) is rejected in favour of the default
`/home/user/.config/opencode`, while `/home/user/cfg` is accepted. -/
theorem claim_C7_install_path_witness :
    get_install_path ⟨["home", "user", ".config", "opencode"], ["home", "user"],
        some ["home", "userX"]⟩ = ["home", "user", ".config", "opencode"] ∧
    get_install_path ⟨["home", "user", ".config", "opencode"], ["home", "user"],
        some ["home", "user", "cfg"]⟩ = ["home", "user", "cfg"] := by
  constructor
  · exact (claim_C7_install_path _ ["home", "userX"] rfl).1 (by decide)
  · exact (claim_C7_install_path _ ["home", "user", "cfg"] rfl).2 (by decide)

theorem pyDictGet_set_self (d : PyDict) (k : PyVal) (v : PyVal) :
    pyDictGet (pyDictSet d k v) k = some v := by
  induction d with
  | nil => simp [pyDictSet, pyDictGet]
  | cons kv rest ih =>
      obtain ⟨k0, v0⟩ := kv
      by_cases h : k0 = k
      · simp [pyDictSet, pyDictGet, h]
      · simp [pyDictSet, pyDictGet, h, ih]

theorem pyDictGet_set_ne (d : PyDict) (k k' : PyVal) (v : PyVal) (h : k' ≠ k) :
    pyDictGet (pyDictSet d k v) k' = pyDictGet d k' := by
  induction d with
  | nil =>
      simp only [pyDictSet, pyDictGet]
      rw [if_neg (fun hh => h hh.symm)]
  | cons kv rest ih =>
      obtain ⟨k0, v0⟩ := kv
      by_cases h0 : k0 = k
      · subst h0
        simp only [pyDictSet, if_pos rfl, pyDictGet]
        rw [if_neg (fun hh : k0 = k' => h hh.symm), if_neg (fun hh : k0 = k' => h hh.symm)]
      · simp only [pyDictSet, if_neg h0, pyDictGet, ih]

/-- The merge loop returns normally (no exception) whenever every
incoming value is iterable and every receiving slot is absent or a
list. -/
theorem mergeLoop_ok : ∀ (items : List (PyVal × PyVal)) (h : PyDict),
    (∀ kv ∈ items, (pyIterate kv.2).isSome = true) →
    (∀ kv ∈ items, pyDictGet h kv.1 = Option.none ∨
      ∃ xs, pyDictGet h kv.1 = some (PyVal.list xs)) →
    ∃ h1, mergeLoop h items = some h1 := by
  intro items
  induction items with
  | nil => intro h _ _; exact ⟨h, rfl⟩
  | cons kv rest ih =>
      intro h hiter hrecv
      obtain ⟨e, ev⟩ := kv
      obtain ⟨its, hits⟩ := Option.isSome_iff_exists.mp (hiter (e, ev) (List.mem_cons_self _ _))
      have hcur : ∃ xs, (pyDictGet h e).getD (PyVal.list []) = PyVal.list xs := by
        rcases hrecv (e, ev) (List.mem_cons_self _ _) with hc | ⟨xs, hc⟩
        · exact ⟨[], by rw [hc]; rfl⟩
        · exact ⟨xs, by rw [hc]; rfl⟩
      obtain ⟨xs, hxs⟩ := hcur
      have hrecv' : ∀ kv ∈ rest,
          pyDictGet (pyDictSet h e (PyVal.list (xs ++ its))) kv.1 = Option.none ∨
          ∃ ys, pyDictGet (pyDictSet h e (PyVal.list (xs ++ its))) kv.1 =
            some (PyVal.list ys) := by
        intro kv hkv
        by_cases hk : kv.1 = e
        · right
          exact ⟨xs ++ its, by rw [hk, pyDictGet_set_self]⟩
        · rw [pyDictGet_set_ne _ _ _ _ hk]
          exact hrecv kv (List.mem_cons_of_mem _ hkv)
      obtain ⟨h1, hh1⟩ := ih (pyDictSet h e (PyVal.list (xs ++ its)))
        (fun kv hkv => hiter kv (List.mem_cons_of_mem _ hkv)) hrecv'
      refine ⟨h1, ?_⟩
      unfold mergeLoop
      rw [hxs]
      dsimp only
      rw [hits]
      exact hh1

/-- The list an event's merge starts from: the existing list when the
event holds one, `[]` when the event is absent (`.get(event, [])`). -/
def startList : Option PyVal → List PyVal
  | some (PyVal.list L) => L
  | _ => []

theorem dictSet_get_same (d : Dict) (k : String) (v : PyVal)
    (h : dictGet d k = some v) : dictSet d k v = d := by
  induction d with
  | nil => simp [dictGet] at h
  | cons kv rest ih =>
      obtain ⟨k0, v0⟩ := kv
      by_cases h0 : k0 = k
      · subst h0
        unfold dictGet at h
        rw [if_pos rfl] at h
        cases h
        unfold dictSet
        rw [if_pos rfl]
      · unfold dictGet at h
        rw [if_neg h0] at h
        unfold dictSet
        rw [if_neg h0, ih h]

theorem mergeLoop_cons_inv (h : PyDict) (e ev : PyVal) (rest : List (PyVal × PyVal))
    (h1 : PyDict) (hl : mergeLoop h ((e, ev) :: rest) = some h1) :
    ∃ xs its, (pyDictGet h e).getD (PyVal.list []) = PyVal.list xs ∧
      pyIterate ev = some its ∧
      mergeLoop (pyDictSet h e (PyVal.list (xs ++ its))) rest = some h1 := by
  unfold mergeLoop at hl
  cases hc : (pyDictGet h e).getD (PyVal.list []) with
  | list xs =>
      rw [hc] at hl
      dsimp only at hl
      cases hit : pyIterate ev with
      | some its =>
          rw [hit] at hl
          exact ⟨xs, its, rfl, rfl, hl⟩
      | none => rw [hit] at hl; simp at hl
  | str s => rw [hc] at hl; simp at hl
  | bool b => rw [hc] at hl; simp at hl
  | int n => rw [hc] at hl; simp at hl
  | none => rw [hc] at hl; simp at hl
  | dict kvs => rw [hc] at hl; simp at hl

theorem mergeLoop_get_notmem : ∀ (items : List (PyVal × PyVal)) (h h1 : PyDict),
    mergeLoop h items = some h1 → ∀ e, e ∉ items.map Prod.fst →
    pyDictGet h1 e = pyDictGet h e := by
  intro items
  induction items with
  | nil =>
      intro h h1 hl e _
      have hh : h = h1 := Option.some.inj hl
      rw [← hh]
  | cons kv rest ih =>
      intro h h1 hl e he
      obtain ⟨k, kev⟩ := kv
      obtain ⟨xs, its, hc, hit, hl2⟩ := mergeLoop_cons_inv h k kev rest h1 hl
      simp only [List.map_cons, List.mem_cons, not_or] at he
      rw [ih _ _ hl2 e he.2]
      exact pyDictGet_set_ne _ _ _ _ he.1

theorem mergeLoop_get_mem : ∀ (items : List (PyVal × PyVal)) (h h1 : PyDict),
    mergeLoop h items = some h1 → (items.map Prod.fst).Nodup →
    ∀ e ev its, (e, ev) ∈ items → pyIterate ev = some its →
    pyDictGet h1 e = some (PyVal.list (startList (pyDictGet h e) ++ its)) := by
  intro items
  induction items with
  | nil =>
      intro h h1 _ _ e ev its hmem _
      exact absurd hmem (List.not_mem_nil _)
  | cons kv rest ih =>
      intro h h1 hl hnd e ev its hmem hit
      obtain ⟨k, kev⟩ := kv
      obtain ⟨xs, kits, hc, hkit, hl2⟩ := mergeLoop_cons_inv h k kev rest h1 hl
      simp only [List.map_cons, List.nodup_cons] at hnd
      rcases List.mem_cons.mp hmem with heq | hmem2
      · have hek : e = k := congrArg Prod.fst heq
        have hev : ev = kev := congrArg Prod.snd heq
        subst hek
        subst hev
        rw [hkit] at hit
        have hits : kits = its := Option.some.inj hit
        subst hits
        have hxs : xs = startList (pyDictGet h e) := by
          cases hg : pyDictGet h e with
          | none =>
              rw [hg] at hc
              have hc2 : PyVal.list [] = PyVal.list xs := hc
              exact (PyVal.list.inj hc2).symm
          | some v =>
              rw [hg] at hc
              have hv : v = PyVal.list xs := hc
              subst hv
              rfl
        rw [mergeLoop_get_notmem rest _ _ hl2 e hnd.1]
        rw [pyDictGet_set_self, hxs]
      · have hek : e ≠ k := by
          intro hh
          subst hh
          exact hnd.1 (List.mem_map.mpr ⟨(e, ev), hmem2, rfl⟩)
        rw [ih _ _ hl2 hnd.2 e ev its hmem2 hit]
        rw [pyDictGet_set_ne _ _ _ _ hek]

/-- C8: for every incoming hook configuration (wrapped under a
top-level `hooks` key or bare) whose event items merge without
raising, the merge reports success and writes exactly the existing
configuration with its `hooks` dict replaced by the merged event dict;
in the merged dict every event not named by the incoming configuration
is untouched, every named event whose existing list is `L` gets
`L ++ its` (the incoming entries appended at the end, in order, with
nothing removed, reordered or deduplicated), and every named event
absent from the existing dict is created with exactly the incoming
entries. -/
theorem claim_C8_merge_appends (cfg : Dict) (hs : PyDict) (hooks_config : Dict)
    (items : List (PyVal × PyVal)) (h1 : PyDict)
    (hcfg : dictGet cfg "hooks" = some (PyVal.dict hs))
    (hitems : hooksToMerge hooks_config = PyVal.dict items)
    (hloop : mergeLoop hs items = some h1) :
    (merge_hooks_to_config ⟨ReadOutcome.ok cfg, true⟩ hooks_config false =
      MergeOutcome.returned true (some (dictSet cfg "hooks" (PyVal.dict h1)))) ∧
    (∀ e, e ∉ items.map Prod.fst → pyDictGet h1 e = pyDictGet hs e) ∧
    ((items.map Prod.fst).Nodup →
      ∀ e ev its, (e, ev) ∈ items → pyIterate ev = some its →
        (∀ L, pyDictGet hs e = some (PyVal.list L) →
          pyDictGet h1 e = some (PyVal.list (L ++ its))) ∧
        (pyDictGet hs e = Option.none →
          pyDictGet h1 e = some (PyVal.list its))) := by
  have hens : ensuredBase ⟨ReadOutcome.ok cfg, true⟩ = cfg := by
    unfold ensuredBase
    dsimp only
    rw [if_pos (by unfold dictContains; rw [hcfg]; rfl)]
  refine ⟨?_, ?_, ?_⟩
  · unfold merge_hooks_to_config
    rw [hens, hitems]
    dsimp only
    cases items with
    | nil =>
        rw [if_pos rfl]
        have hh : hs = h1 := Option.some.inj hloop
        rw [dictSet_get_same cfg "hooks" (PyVal.dict h1) (by rw [← hh]; exact hcfg)]
        rfl
    | cons kv rest =>
        rw [if_neg (by simp)]
        rw [hcfg]
        dsimp only
        rw [hloop]
        rfl
  · exact fun e he => mergeLoop_get_notmem items hs h1 hloop e he
  · intro hnd e ev its hmem hit
    constructor
    · intro L hL
      have hg := mergeLoop_get_mem items hs h1 hloop hnd e ev its hmem hit
      rw [hL] at hg
      exact hg
    · intro hL
      have hg := mergeLoop_get_mem items hs h1 hloop hnd e ev its hmem hit
      rw [hL] at hg
      exact hg

/-- C8 witness: merging `{"hooks": {"PreToolUse": [X], "PostToolUse":
[Z]}}` into a file containing `{"hooks": {"PreToolUse": [Y]}}` yields
`{"hooks": {"PreToolUse": [Y, X], "PostToolUse": [Z]}}` — the spec's
append example on the existing event together with creation of a new
event in the same call; the bare form `{"PreToolUse": [X]}` merges
identically. -/
theorem claim_C8_merge_appends_witness :
    (merge_hooks_to_config
        ⟨ReadOutcome.ok [("hooks", PyVal.dict
          [(PyVal.str "PreToolUse", PyVal.list [PyVal.str "Y"])])], true⟩
        [("hooks", PyVal.dict
          [(PyVal.str "PreToolUse", PyVal.list [PyVal.str "X"]),
           (PyVal.str "PostToolUse", PyVal.list [PyVal.str "Z"])])] false =
      MergeOutcome.returned true (some [("hooks", PyVal.dict
        [(PyVal.str "PreToolUse", PyVal.list [PyVal.str "Y", PyVal.str "X"]),
         (PyVal.str "PostToolUse", PyVal.list [PyVal.str "Z"])])])) ∧
    (merge_hooks_to_config
        ⟨ReadOutcome.ok [("hooks", PyVal.dict
          [(PyVal.str "PreToolUse", PyVal.list [PyVal.str "Y"])])], true⟩
        [("PreToolUse", PyVal.list [PyVal.str "X"])] false =
      MergeOutcome.returned true (some [("hooks", PyVal.dict
        [(PyVal.str "PreToolUse", PyVal.list [PyVal.str "Y", PyVal.str "X"])])])) := by
  constructor
  · rw [(claim_C8_merge_appends
        [("hooks", PyVal.dict [(PyVal.str "PreToolUse", PyVal.list [PyVal.str "Y"])])]
        [(PyVal.str "PreToolUse", PyVal.list [PyVal.str "Y"])]
        [("hooks", PyVal.dict
          [(PyVal.str "PreToolUse", PyVal.list [PyVal.str "X"]),
           (PyVal.str "PostToolUse", PyVal.list [PyVal.str "Z"])])]
        [(PyVal.str "PreToolUse", PyVal.list [PyVal.str "X"]),
         (PyVal.str "PostToolUse", PyVal.list [PyVal.str "Z"])]
        [(PyVal.str "PreToolUse", PyVal.list [PyVal.str "Y", PyVal.str "X"]),
         (PyVal.str "PostToolUse", PyVal.list [PyVal.str "Z"])]
        rfl rfl (by decide)).1]
    rfl
  · rw [(claim_C8_merge_appends
        [("hooks", PyVal.dict [(PyVal.str "PreToolUse", PyVal.list [PyVal.str "Y"])])]
        [(PyVal.str "PreToolUse", PyVal.list [PyVal.str "Y"])]
        [("PreToolUse", PyVal.list [PyVal.str "X"])]
        [(PyVal.str "PreToolUse", PyVal.list [PyVal.str "X"])]
        [(PyVal.str "PreToolUse", PyVal.list [PyVal.str "Y", PyVal.str "X"])]
        rfl rfl (by decide)).1]
    rfl

/-- The boolean the caller receives, when the call returns at all. -/
def mergeSuccess : MergeOutcome → Option Bool
  | MergeOutcome.raised => Option.none
  | MergeOutcome.returned b _ => some b

/-- C9 counterexample: when reading/parsing `opencode.json` fails but
the subsequent write succeeds, `merge_hooks_to_config` returns `True`
(after merging into an empty base) — the read/parse failure is caught
and logged but NOT reported as a `False` return, contrary to the
claim. -/
theorem claim_C9_counterexample :
    merge_hooks_to_config ⟨ReadOutcome.failure, true⟩
        [("E", PyVal.list [PyVal.str "X"])] false =
      MergeOutcome.returned true
        (some [("hooks", PyVal.dict [(PyVal.str "E", PyVal.list [PyVal.str "X"])])]) ∧
    mergeSuccess (merge_hooks_to_config ⟨ReadOutcome.failure, true⟩
        [("E", PyVal.list [PyVal.str "X"])] false) ≠ some false := by
  refine ⟨by decide, by decide⟩

/-- C9 amended: write and read/parse failures never propagate as
exceptions.  A failed (non-dry) write is reported as `False`; a
read/parse failure is caught and treated exactly like a missing file
(empty base), so the merge proceeds and the returned boolean is
`dry_run OR write-success`.  (The merge loop itself can still raise on
malformed hook structures, which is outside the claim's scope; the
hypotheses restrict to well-formed ones.) -/
theorem claim_C9_amended :
    (∀ (w : MergeWorld) (hooks_config : Dict) (dry : Bool)
        (items : List (PyVal × PyVal)) (hs : PyDict),
      hooksToMerge hooks_config = PyVal.dict items →
      dictGet (ensuredBase w) "hooks" = some (PyVal.dict hs) →
      (∀ kv ∈ items, (pyIterate kv.2).isSome = true) →
      (∀ kv ∈ items, pyDictGet hs kv.1 = Option.none ∨
        ∃ xs, pyDictGet hs kv.1 = some (PyVal.list xs)) →
      ∃ out, merge_hooks_to_config w hooks_config dry =
        MergeOutcome.returned (dry || w.writeOk) out) ∧
    (∀ (wk : Bool) (hooks_config : Dict) (dry : Bool),
      merge_hooks_to_config ⟨ReadOutcome.failure, wk⟩ hooks_config dry =
      merge_hooks_to_config ⟨ReadOutcome.missing, wk⟩ hooks_config dry) := by
  constructor
  · intro w hooks dry items hs hitems hhs hiter hrecv
    unfold merge_hooks_to_config
    rw [hitems]
    dsimp only
    cases items with
    | nil =>
        rw [if_pos (show ([] : List (PyVal × PyVal)).isEmpty = true from rfl)]
        cases dry with
        | true => exact ⟨Option.none, by simp⟩
        | false =>
            cases hwk : w.writeOk with
            | true => exact ⟨some (ensuredBase w), by simp [hwk]⟩
            | false => exact ⟨Option.none, by simp [hwk]⟩
    | cons kv rest =>
        rw [if_neg (by simp)]
        rw [hhs]
        dsimp only
        obtain ⟨h1, hh1⟩ := mergeLoop_ok (kv :: rest) hs hiter hrecv
        rw [hh1]
        dsimp only
        cases dry with
        | true => exact ⟨Option.none, by simp⟩
        | false =>
            cases hwk : w.writeOk with
            | true => exact ⟨some (dictSet (ensuredBase w) "hooks" (PyVal.dict h1)),
                by simp [hwk]⟩
            | false => exact ⟨Option.none, by simp [hwk]⟩
  · intro wk hooks dry
    rfl

/-- C9 amended witness: merging one event into a missing file succeeds
(boolean `true`), and a read failure behaves exactly like a missing
file. -/
theorem claim_C9_amended_witness :
    (∃ out, merge_hooks_to_config ⟨ReadOutcome.missing, true⟩
        [("E", PyVal.list [PyVal.str "X"])] false = MergeOutcome.returned true out) ∧
    merge_hooks_to_config ⟨ReadOutcome.failure, false⟩
        [("E", PyVal.list [PyVal.str "X"])] false =
      merge_hooks_to_config ⟨ReadOutcome.missing, false⟩
        [("E", PyVal.list [PyVal.str "X"])] false := by
  constructor
  · exact claim_C9_amended.1 ⟨ReadOutcome.missing, true⟩ _ false
      [(PyVal.str "E", PyVal.list [PyVal.str "X"])] [] rfl rfl (by decide)
      (fun kv _ => Or.inl rfl)
  · exact claim_C9_amended.2 false _ false

/-!
## Positional analysis of the body-text tool rewrite
-/

/-- Whether the character just before the current position (the last
character of the consumed original prefix `u`) is a word character;
at the very start of the string there is none. -/
def prevWordChar (u : List Char) : Bool :=
  match u.getLast? with
  | some c => isWordChar c
  | Option.none => false

/-- An eligible match of `\bNAME\b(?=\s+tool|\s+command)` at the
position splitting the original string into `u ++ v`: no word character
just before, a case-insensitive occurrence of the name at the front of
`v`, and the trailing boundary and lookahead satisfied after it. -/
def eligAt (n0 : Char) (ns : List Char) (u v : List Char) : Bool :=
  !prevWordChar u &&
  (match matchCI (n0 :: ns) v with
   | some rest => boundaryAt rest && lookToolCmd rest
   | Option.none => false)

/-- No eligible match at any position `i < k` of `s`. -/
def noEligBefore (n0 : Char) (ns : List Char) (s : List Char) (k : Nat) : Bool :=
  (List.range k).all (fun i => !eligAt n0 ns (s.take i) (s.drop i))

theorem noEligBefore_split (n0 : Char) (ns : List Char) (s : List Char) (k : Nat)
    (h : noEligBefore n0 ns s k = true) :
    ∀ a b, s = a ++ b → a.length < k → eligAt n0 ns a b = false := by
  intro a b hab hlt
  have ha : a = s.take a.length := by rw [hab, List.take_left]
  have hb : b = s.drop a.length := by rw [hab, List.drop_left]
  have := List.all_eq_true.mp h a.length (List.mem_range.mpr hlt)
  rw [← ha, ← hb] at this
  cases he : eligAt n0 ns a b with
  | false => rfl
  | true => rw [he] at this; exact absurd this (by decide)

theorem prevWordChar_snoc (w : List Char) (c : Char) :
    prevWordChar (w ++ [c]) = isWordChar c := by
  unfold prevWordChar
  rw [List.getLast?_concat]

theorem scanSub_fuel_irrel (n0 : Char) (ns repl : List Char) :
    ∀ (f g : Nat) (s : List Char) (prevW : Bool), s.length ≤ f → s.length ≤ g →
      scanSub n0 ns repl f prevW s = scanSub n0 ns repl g prevW s := by
  intro f
  induction f with
  | zero =>
      intro g s prevW hf _
      have : s = [] := by
        cases s with
        | nil => rfl
        | cons c cs => simp at hf
      subst this
      cases g <;> rfl
  | succ f ih =>
      intro g s prevW hf hg
      cases s with
      | nil => cases g <;> rfl
      | cons c cs =>
          cases g with
          | zero => simp at hg
          | succ g =>
              have hcf : cs.length ≤ f := by simp only [List.length_cons] at hf; omega
              have hcg : cs.length ≤ g := by simp only [List.length_cons] at hg; omega
              unfold scanSub
              cases prevW with
              | true =>
                  rw [if_pos rfl, if_pos rfl, ih g cs (isWordChar c) hcf hcg]
              | false =>
                  rw [if_neg (by decide), if_neg (by decide)]
                  cases hm : matchCI (n0 :: ns) (c :: cs) with
                  | none => rw [ih g cs (isWordChar c) hcf hcg]
                  | some rest =>
                      have hrest : rest.length ≤ cs.length := by
                        have := matchCI_length (n0 :: ns) (c :: cs) rest hm
                        simp only [List.length_cons] at this
                        omega
                      dsimp only
                      cases hcond : boundaryAt rest && lookToolCmd rest with
                      | true =>
                          rw [if_pos rfl, if_pos rfl,
                            ih g rest _ (le_trans hrest hcf) (le_trans hrest hcg)]
                      | false =>
                          rw [if_neg (by decide), if_neg (by decide),
                            ih g cs (isWordChar c) hcf hcg]

theorem scanSub_no_elig (n0 : Char) (ns repl : List Char) :
    ∀ (fuel : Nat) (s w : List Char), s.length ≤ fuel →
    (∀ a b, w ++ s = a ++ b → w.length ≤ a.length → eligAt n0 ns a b = false) →
    scanSub n0 ns repl fuel (prevWordChar w) s = s := by
  intro fuel
  induction fuel with
  | zero =>
      intro s w _ _
      rfl
  | succ fuel ih =>
      intro s w hlen helig
      cases s with
      | nil => rfl
      | cons c cs =>
          have hcf : cs.length ≤ fuel := by simp only [List.length_cons] at hlen; omega
          have hstep : ∀ a b, (w ++ [c]) ++ cs = a ++ b → (w ++ [c]).length ≤ a.length →
              eligAt n0 ns a b = false := by
            intro a b hab hla
            refine helig a b ?_ ?_
            · rw [← hab, List.append_assoc]; rfl
            · simp only [List.length_append, List.length_cons, List.length_nil] at hla ⊢
              omega
          have htail : scanSub n0 ns repl fuel (isWordChar c) cs = cs := by
            have := ih cs (w ++ [c]) hcf hstep
            rw [prevWordChar_snoc] at this
            exact this
          have h0 : eligAt n0 ns w (c :: cs) = false := helig w (c :: cs) rfl (le_refl _)
          unfold scanSub
          cases hpw : prevWordChar w with
          | true => rw [if_pos rfl, htail]
          | false =>
              rw [if_neg (by decide)]
              simp only [eligAt, hpw, Bool.not_false, Bool.true_and] at h0
              cases hm : matchCI (n0 :: ns) (c :: cs) with
              | none => rw [htail]
              | some rest =>
                  rw [hm] at h0
                  dsimp only at h0
                  dsimp only
                  rw [if_neg (by rw [h0]; decide), htail]

theorem scanSub_cons (n0 : Char) (ns repl : List Char) (fuel : Nat) (prevW : Bool)
    (c : Char) (cs : List Char) :
    scanSub n0 ns repl (fuel + 1) prevW (c :: cs) =
      if prevW then c :: scanSub n0 ns repl fuel (isWordChar c) cs
      else
        match matchCI (n0 :: ns) (c :: cs) with
        | some rest =>
            if boundaryAt rest && lookToolCmd rest then
              repl ++ scanSub n0 ns repl fuel (isWordChar ((n0 :: ns).getLastD ' ')) rest
            else c :: scanSub n0 ns repl fuel (isWordChar c) cs
        | Option.none => c :: scanSub n0 ns repl fuel (isWordChar c) cs := rfl

theorem scanSub_elig (n0 : Char) (ns repl : List Char) :
    ∀ (u : List Char) (fuel : Nat) (w m v : List Char),
    (u ++ m ++ v).length ≤ fuel →
    matchCI (n0 :: ns) (m ++ v) = some v →
    boundaryAt v = true → lookToolCmd v = true →
    prevWordChar (w ++ u) = false →
    (∀ a b, w ++ (u ++ m ++ v) = a ++ b → w.length ≤ a.length →
        a.length < (w ++ u).length → eligAt n0 ns a b = false) →
    scanSub n0 ns repl fuel (prevWordChar w) (u ++ m ++ v) =
      u ++ repl ++ scanSub n0 ns repl v.length (isWordChar ((n0 :: ns).getLastD ' ')) v := by
  intro u
  induction u with
  | nil =>
      intro fuel w m v hlen hm hb hlk hpw _
      have hmlen : v.length + (ns.length + 1) = (m ++ v).length :=
        matchCI_length (n0 :: ns) (m ++ v) v hm
      rw [List.nil_append] at hlen ⊢
      rw [List.append_nil] at hpw
      cases m with
      | nil =>
          exfalso
          simp only [List.nil_append, List.length_cons] at hmlen
          omega
      | cons c m' =>
          cases fuel with
          | zero => exfalso; simp at hlen
          | succ fuel =>
              have hfv : v.length ≤ fuel := by
                simp only [List.length_append, List.length_cons] at hlen hmlen ⊢
                omega
              rw [List.cons_append]
              rw [scanSub_cons]
              rw [hpw, if_neg (by decide)]
              rw [show matchCI (n0 :: ns) (c :: (m' ++ v)) = some v from by
                rw [← List.cons_append]; exact hm]
              dsimp only
              rw [if_pos (by rw [hb, hlk]; rfl)]
              rw [scanSub_fuel_irrel n0 ns repl fuel v.length v _ hfv (le_refl _)]
              rw [List.nil_append]
  | cons c u' ih =>
      intro fuel w m v hlen hm hb hlk hpw helig
      cases fuel with
      | zero => exfalso; simp at hlen
      | succ fuel =>
          have hcf : (u' ++ m ++ v).length ≤ fuel := by
            simp only [List.cons_append, List.length_cons, List.length_append] at hlen ⊢
            omega
          have h0 : eligAt n0 ns w (c :: (u' ++ m ++ v)) = false := by
            refine helig w _ (by rw [List.cons_append, List.cons_append]) (le_refl _) ?_
            simp only [List.length_append, List.length_cons]
            omega
          have hpw' : prevWordChar ((w ++ [c]) ++ u') = false := by
            rw [List.append_assoc]
            exact hpw
          have helig' : ∀ a b, (w ++ [c]) ++ (u' ++ m ++ v) = a ++ b →
              (w ++ [c]).length ≤ a.length → a.length < ((w ++ [c]) ++ u').length →
              eligAt n0 ns a b = false := by
            intro a b hab hla hlb
            refine helig a b ?_ ?_ ?_
            · calc w ++ (c :: u' ++ m ++ v)
                  = (w ++ [c]) ++ (u' ++ m ++ v) := by simp
                _ = a ++ b := hab
            · simp only [List.length_append, List.length_cons, List.length_nil] at hla ⊢
              omega
            · simp only [List.length_append, List.length_cons, List.length_nil] at hlb ⊢
              omega
          have htail := ih fuel (w ++ [c]) m v hcf hm hb hlk hpw' helig'
          rw [prevWordChar_snoc] at htail
          rw [List.cons_append, List.cons_append]
          rw [scanSub_cons]
          cases hpwc : prevWordChar w with
          | true =>
              rw [if_pos rfl, htail]
              rw [List.cons_append, List.cons_append]
          | false =>
              rw [if_neg (by decide)]
              simp only [eligAt, hpwc, Bool.not_false, Bool.true_and] at h0
              cases hmc : matchCI (n0 :: ns) (c :: (u' ++ m ++ v)) with
              | none =>
                  dsimp only
                  rw [htail]
                  rw [List.cons_append, List.cons_append]
              | some rest =>
                  have h0' : (boundaryAt rest && lookToolCmd rest) = false := by
                    rw [hmc] at h0
                    exact h0
                  dsimp only
                  rw [if_neg (by rw [h0']; decide), htail]
                  rw [List.cons_append, List.cons_append]

/-- The condition the claim states for a rewrite: the occurrence is
immediately followed by whitespace and then the literal WORD `tool` or
`command` (i.e. with a word boundary after it). -/
def followedByToolWord (v : List Char) : Bool :=
  match v with
  | [] => false
  | c :: _ =>
      isPySpace c &&
      ((match matchCI "tool".data (v.dropWhile isPySpace) with
        | some r => boundaryAt r
        | Option.none => false) ||
       (match matchCI "command".data (v.dropWhile isPySpace) with
        | some r => boundaryAt r
        | Option.none => false))

/-- C5 counterexample: in `"Bash toolkit"` the only table-name
occurrence, `Bash`, is followed by whitespace and `toolkit` — not the
word `tool` or `command` — so by the claim it should be left unchanged;
the code rewrites it anyway, because the regex lookahead
`(?=\s+tool|\s+command)` matches `tool` as a mere prefix of
`toolkit`. -/
theorem claim_C5_counterexample :
    followedByToolWord " toolkit".data = false ∧
    _normalize_tool_references "Bash toolkit" = "bash toolkit" ∧
    "bash toolkit" ≠ "Bash toolkit" :=
  ⟨by decide, by decide, by decide⟩

/-- C5 amended: the body rewrite is the fold of per-entry substitutions
over the tool-name table, and for each entry with nonempty canonical
name: (a) if no position of the text carries an eligible match — a
whole-word case-insensitive occurrence of the name followed by
whitespace and then, case-insensitively, the literal text `tool` or
`command` as a prefix of what follows — the substitution returns the
text unchanged; (b) at the first eligible match the name is replaced by
the platform name and scanning continues after the occurrence. -/
theorem claim_C5_amended :
    (∀ text : String, _normalize_tool_references text =
      String.mk (_OPENCODE_TOOL_NAME_MAP.foldl
        (fun acc kv => subTool kv.1 kv.2 acc) text.data)) ∧
    (∀ cn pn, (cn, pn) ∈ _OPENCODE_TOOL_NAME_MAP →
      ∀ n0 ns, cn.data = n0 :: ns →
      (∀ s : List Char, noEligBefore n0 ns s (s.length + 1) = true →
        subTool cn pn s = s) ∧
      (∀ u m v : List Char,
        matchCI (n0 :: ns) (m ++ v) = some v →
        boundaryAt v = true → lookToolCmd v = true →
        prevWordChar u = false →
        noEligBefore n0 ns (u ++ m ++ v) u.length = true →
        subTool cn pn (u ++ m ++ v) =
          u ++ pn.data ++ scanSub n0 ns pn.data v.length
            (isWordChar ((n0 :: ns).getLastD ' ')) v)) := by
  constructor
  · intro text
    rfl
  · intro cn pn _ n0 ns hdata
    constructor
    · intro s hne
      unfold subTool
      rw [hdata]
      have h := scanSub_no_elig n0 ns pn.data s.length s [] (le_refl _)
        (by
          intro a b hab _
          refine noEligBefore_split n0 ns s (s.length + 1) hne a b ?_ ?_
          · rw [← hab]; rfl
          · have : a.length + b.length = s.length := by
              rw [show s = a ++ b from by rw [← hab]; rfl, List.length_append]
            omega)
      rw [show prevWordChar [] = false from rfl] at h
      exact h
    · intro u m v hm hb hlk hpw hne
      unfold subTool
      rw [hdata]
      have h := scanSub_elig n0 ns pn.data u (u ++ m ++ v).length [] m v (le_refl _)
        hm hb hlk (by rw [List.nil_append]; exact hpw)
        (by
          intro a b hab _ hlt
          refine noEligBefore_split n0 ns (u ++ m ++ v) u.length hne a b ?_ ?_
          · rw [← hab]; rfl
          · rw [List.nil_append] at hlt; exact hlt)
      rw [show prevWordChar [] = false from rfl] at h
      exact h

/-- C5 amended witness: for the `Bash` → `bash` entry, the text
`"Bash is fine."` (no eligible occurrence: `Bash` is not followed by
`tool`/`command`) is unchanged, and in `"Use "` ++ `"Bash"` ++
`" tool."` the eligible occurrence at position 4 is replaced. -/
theorem claim_C5_amended_witness :
    subTool "Bash" "bash" "Bash is fine.".data = "Bash is fine.".data ∧
    subTool "Bash" "bash" ("Use ".data ++ "Bash".data ++ " tool.".data) =
      "Use ".data ++ "bash".data ++
        scanSub 'B' "ash".data "bash".data " tool.".data.length
          (isWordChar (('B' :: "ash".data).getLastD ' ')) " tool.".data := by
  have h := claim_C5_amended.2 "Bash" "bash" (by decide) 'B' "ash".data rfl
  constructor
  · exact h.1 "Bash is fine.".data (by decide)
  · exact h.2 "Use ".data "Bash".data " tool.".data (by decide) (by decide) (by decide)
      (by decide) (by decide)

end OpenCode
